import Mathlib

set_option maxRecDepth 100000

/-!
Verification of the context-window budget management core of the
openclaw repository, against its natural-language specification.

The development shallowly embeds:
  * the turn-aware history pruner (`src/agents/compaction.ts`):
    `chunkMessagesByMaxTokens`, `splitMessagesByTokenShare`,
    `chooseTurnAwareCutIndex`, `pruneHistoryForContextShare`;
  * the byte/line hard clamp (`tool-output-hard-cap.ts`):
    `hardTruncateText`, `sliceToMaxUtf8Bytes`, `sliceToMaxLines`,
    `hardCapToolOutput` with a JSON value model;
  * the staged summarization fallback ladder (`summarizeWithFallback`);
  * the overflow-recovery oversize test (`isOversizedToolResult`).

Modelling conventions:
  * JavaScript strings are lists of UTF-16 code units (`List Nat`);
    `Buffer.byteLength(s, "utf8")` is `utf8Len` (a lone surrogate encodes
    as the 3-byte replacement character, as in Node).
  * The token estimator is external and pluggable, so every function that
    uses `estimateTokens` is parameterized by `est : Msg → Nat`.
  * JavaScript numbers used as integer token counts/budgets are `Nat`;
    the float constants `0.5`, `0.3`, `0.9`, `1.1`, `1.2` of the source
    are embedded as the exact rationals they denote, with integer
    cross-multiplied comparisons where the source compares against them.
-/

/-- A conversation message, as far as the compaction core inspects it:
its role tag, the id its tool-result refers to (`toolCallId`), the ids of
the tool-call blocks it carries (for assistant messages), its content
blocks (only the distinction text-block/other and the text's code units
matter), and a sample token size used to instantiate the pluggable
estimator in concrete witnesses. -/
inductive Block where
  | text (units : List Nat)
  | other
deriving DecidableEq, Repr

structure Msg where
  role : String
  toolCallId : Option String := none
  toolUseIds : List String := []
  content : List Block := []
  tokens : Nat := 0
deriving DecidableEq, Repr

def defaultMsg : Msg := { role := "" }

/-- `estimateMessagesTokens` (compaction.ts:45): sum of the pluggable
estimator over the messages. -/
def estimateMessagesTokens (est : Msg → Nat) (messages : List Msg) : Nat :=
  (messages.map est).sum

/-- `normalizeParts` (compaction.ts:49), for an integer `parts` argument:
non-finite never arises, `parts ≤ 1` yields 1, else clamp between 1 and
the message count. -/
def normalizeParts (parts : Int) (messageCount : Nat) : Nat :=
  if parts ≤ 1 then 1
  else min (max 1 parts.toNat) (max 1 messageCount)

/-- Loop body state of `splitMessagesByTokenShare` (compaction.ts:56):
`nchunks` chunks already flushed, `current` chunk and its token count.
The target share is the exact rational `totalTokens / normalizedParts`
(the source computes it in floating point). -/
def splitGo (est : Msg → Nat) (np : Nat) (target : ℚ) :
    List Msg → Nat → List Msg → Nat → List (List Msg)
  | [], _, current, _ => if current = [] then [] else [current]
  | m :: rest, nchunks, current, currentTokens =>
    let messageTokens := est m
    if nchunks + 1 < np ∧ current ≠ [] ∧
        ((currentTokens + messageTokens : Nat) : ℚ) > target then
      current :: splitGo est np target rest (nchunks + 1) [m] messageTokens
    else
      splitGo est np target rest nchunks (current ++ [m]) (currentTokens + messageTokens)

/-- `splitMessagesByTokenShare` (compaction.ts:56). -/
def splitMessagesByTokenShare (est : Msg → Nat) (messages : List Msg)
    (parts : Int := 2) : List (List Msg) :=
  if messages = [] then []
  else
    let normalizedParts := normalizeParts parts messages.length
    if normalizedParts ≤ 1 then [messages]
    else
      let totalTokens := estimateMessagesTokens est messages
      let targetTokens : ℚ := (totalTokens : ℚ) / (normalizedParts : ℚ)
      splitGo est normalizedParts targetTokens messages 0 [] 0

/-- Loop body of `chunkMessagesByMaxTokens` (compaction.ts:97): flush the
current chunk when adding the next message would exceed `maxTokens`, and
flush immediately after an oversized message. -/
def chunkGo (est : Msg → Nat) (maxTokens : Nat) :
    List Msg → List Msg → Nat → List (List Msg)
  | [], currentChunk, _ => if currentChunk = [] then [] else [currentChunk]
  | m :: rest, currentChunk, currentTokens =>
    let messageTokens := est m
    let pre : List (List Msg) × List Msg × Nat :=
      if currentChunk ≠ [] ∧ currentTokens + messageTokens > maxTokens then
        ([currentChunk], [], 0)
      else
        ([], currentChunk, currentTokens)
    let chunk2 := pre.2.1 ++ [m]
    let tokens2 := pre.2.2 + messageTokens
    if messageTokens > maxTokens then
      pre.1 ++ [chunk2] ++ chunkGo est maxTokens rest [] 0
    else
      pre.1 ++ chunkGo est maxTokens rest chunk2 tokens2

/-- `chunkMessagesByMaxTokens` (compaction.ts:97). -/
def chunkMessagesByMaxTokens (est : Msg → Nat) (messages : List Msg)
    (maxTokens : Nat) : List (List Msg) :=
  if messages = [] then [] else chunkGo est maxTokens messages [] 0

theorem chunkGo_flatten (est : Msg → Nat) (maxTokens : Nat) :
    ∀ (l : List Msg) (currentChunk : List Msg) (currentTokens : Nat),
      (chunkGo est maxTokens l currentChunk currentTokens).flatten =
        currentChunk ++ l := by
  intro l
  induction l with
  | nil =>
    intro currentChunk currentTokens
    simp only [chunkGo]
    by_cases h : currentChunk = [] <;> simp [h]
  | cons m rest ih =>
    intro currentChunk currentTokens
    simp only [chunkGo]
    by_cases hflush : currentChunk ≠ [] ∧ currentTokens + est m > maxTokens
    · by_cases hbig : est m > maxTokens <;> simp [hflush, hbig, ih]
    · by_cases hbig : est m > maxTokens <;> simp [hflush, hbig, ih]

theorem splitGo_flatten (est : Msg → Nat) (np : Nat) (target : ℚ) :
    ∀ (l : List Msg) (nchunks : Nat) (current : List Msg) (currentTokens : Nat),
      (splitGo est np target l nchunks current currentTokens).flatten =
        current ++ l := by
  intro l
  induction l with
  | nil =>
    intro nchunks current currentTokens
    simp only [splitGo]
    by_cases h : current = [] <;> simp [h]
  | cons m rest ih =>
    intro nchunks current currentTokens
    simp only [splitGo]
    split <;> simp [ih]

/-- C10: for every message list, every max-token ceiling, every parts
count and every estimator, the in-order concatenation of the chunks
returned by `chunkMessagesByMaxTokens` equals the input list, and the
same holds for the parts returned by `splitMessagesByTokenShare`:
no message is dropped, duplicated or reordered. -/
theorem chunk_and_split_concat_eq_input (est : Msg → Nat)
    (messages : List Msg) (maxTokens : Nat) (parts : Int) :
    (chunkMessagesByMaxTokens est messages maxTokens).flatten = messages ∧
      (splitMessagesByTokenShare est messages parts).flatten = messages := by
  constructor
  · unfold chunkMessagesByMaxTokens
    by_cases h : messages = []
    · simp [h]
    · simp [h, chunkGo_flatten]
  · unfold splitMessagesByTokenShare
    by_cases h : messages = []
    · simp [h]
    · by_cases hnp : normalizeParts parts messages.length ≤ 1
      · simp [h, hnp]
      · simp [h, hnp, splitGo_flatten]

/-- `isTurnBoundaryRole` (compaction.ts:345): user-initiated context. -/
def isTurnBoundaryRole (role : String) : Bool :=
  role == "user" || role == "bashExecution"

/-- `isValidCutPoint` (compaction.ts:353): never cut at a toolResult.
Every embedded message carries a string role, so the source's
`typeof role === "string"` guard always passes. -/
def isValidCutPoint (message : Msg) : Bool :=
  message.role ≠ "toolResult"

/-- Suffix token sums of `chooseTurnAwareCutIndex` (compaction.ts:378):
`suffixTokens est messages i` is the token total of `messages[i..]`. -/
def suffixTokens (est : Msg → Nat) (messages : List Msg) (i : Nat) : Nat :=
  estimateMessagesTokens est (messages.drop i)

/-- The valid cut points of `chooseTurnAwareCutIndex` (compaction.ts:387):
all indices whose message is not a toolResult, in increasing order. -/
def validCutPoints (messages : List Msg) : List Nat :=
  (List.range messages.length).filter
    (fun i => isValidCutPoint (messages.getD i defaultMsg))

/-- `chooseTurnAwareCutIndex` (compaction.ts:370). -/
def chooseTurnAwareCutIndex (est : Msg → Nat) (messages : List Msg)
    (budgetTokens : Nat) : Nat :=
  if messages.length = 0 then 0
  else if estimateMessagesTokens est messages ≤ budgetTokens then 0
  else if (validCutPoints messages).isEmpty then
    -- All messages are toolResult: drop everything
    messages.length
  else
    let feasible := (validCutPoints messages).filter
      (fun i => suffixTokens est messages i ≤ budgetTokens)
    match feasible with
    | [] =>
      -- Even the smallest valid suffix exceeds budget; keep from the last
      -- valid cut point
      (validCutPoints messages).getLastD 0
    | f0 :: _ =>
      let feasibleTurnBoundaries := feasible.filter
        (fun i => isTurnBoundaryRole (messages.getD i defaultMsg).role)
      match feasibleTurnBoundaries with
      | [] => f0
      | t0 :: _ => t0

/-- Modelled from the spec: `repairToolUseResultPairing`
(`src/agents/session-transcript-repair.ts`, not part of the corpus; only
its caller `pruneHistoryForContextShare` is). Per the spec's invariant
("a kept toolResult must have its matching toolCall also kept") and
repair pass ("if the kept suffix's leading messages include a toolResult
whose toolCall fell in the dropped prefix, drop that orphan too; count it
separately"), the model walks the messages in order, keeps every
non-toolResult message while accumulating the tool-call ids it carries,
keeps a toolResult exactly when its call id was carried by an earlier
kept message, and drops it as an orphan otherwise. -/
def repairGo (ids : List String) : List Msg → List Msg
  | [] => []
  | m :: rest =>
    if m.role = "toolResult" then
      match m.toolCallId with
      | some id =>
        if id ∈ ids then m :: repairGo ids rest else repairGo ids rest
      | none => repairGo ids rest
    else
      m :: repairGo (ids ++ m.toolUseIds) rest

/-- Modelled from the spec: result of `repairToolUseResultPairing` —
the repaired messages and the dropped-orphan count. -/
def repairToolUseResultPairing (messages : List Msg) :
    List Msg × Nat :=
  let kept := repairGo [] messages
  (kept, messages.length - kept.length)

/-- `sanitizeTokensAfterEstimate` (compaction.ts:32) on `Nat` inputs:
the non-finite/negative guards never fire; `tokensBefore ≤ 0` means
`tokensBefore = 0`; the sanity ratio comparison
`tokensAfter > tokensBefore * 1.1` is the exact integer comparison
`10 * tokensAfter > 11 * tokensBefore`. -/
def sanitizeTokensAfterEstimate (tokensAfter tokensBefore : Nat) : Nat :=
  if tokensBefore = 0 then tokensAfter
  else if 10 * tokensAfter > 11 * tokensBefore then tokensBefore
  else tokensAfter

structure PruneResult where
  messages : List Msg
  droppedMessagesList : List Msg
  droppedChunks : Nat
  droppedMessages : Nat
  droppedTokens : Nat
  keptTokens : Nat
  budgetTokens : Nat
deriving DecidableEq, Repr

/-- `pruneHistoryForContextShare` (compaction.ts:417) at the default
history share 0.5 (`Math.floor(maxContextTokens * 0.5)` is exactly
`maxContextTokens / 2` on naturals since 0.5 is an exact float). -/
def pruneHistoryForContextShare (est : Msg → Nat) (messages : List Msg)
    (maxContextTokens : Nat) : PruneResult :=
  let budgetTokens := max 1 (maxContextTokens / 2)
  let tokensBefore := estimateMessagesTokens est messages
  let cutIndex := chooseTurnAwareCutIndex est messages budgetTokens
  if cutIndex = 0 then
    { messages := messages
      droppedMessagesList := []
      droppedChunks := 0
      droppedMessages := 0
      droppedTokens := 0
      keptTokens := tokensBefore
      budgetTokens := budgetTokens }
  else
    let dropped := messages.take cutIndex
    let keptCandidate := messages.drop cutIndex
    let repairReport := repairToolUseResultPairing keptCandidate
    let repairedKept := repairReport.1
    let orphanedCount := repairReport.2
    { messages := repairedKept
      droppedMessagesList := dropped
      droppedChunks := 1
      droppedMessages := dropped.length + orphanedCount
      droppedTokens := estimateMessagesTokens est dropped
      keptTokens := sanitizeTokensAfterEstimate
        (estimateMessagesTokens est repairedKept) tokensBefore
      budgetTokens := budgetTokens }

theorem suffixTokens_le_total (est : Msg → Nat) (messages : List Msg)
    (i : Nat) : suffixTokens est messages i ≤ estimateMessagesTokens est messages := by
  unfold suffixTokens estimateMessagesTokens
  rw [List.map_drop]
  conv_rhs => rw [← List.take_append_drop i (messages.map est)]
  rw [List.sum_append]
  exact Nat.le_add_left _ _

theorem suffixTokens_antitone (est : Msg → Nat) (messages : List Msg)
    {i j : Nat} (h : i ≤ j) :
    suffixTokens est messages j ≤ suffixTokens est messages i := by
  unfold suffixTokens
  have hd : messages.drop j = (messages.drop i).drop (j - i) := by
    rw [List.drop_drop]
    congr 1
    omega
  rw [hd]
  exact suffixTokens_le_total est (messages.drop i) (j - i)

/-- C4: for every history, budget and estimator: if some valid
(non-toolResult) cut point has suffix token sum at most `K`, then the
suffix kept by `chooseTurnAwareCutIndex` has token sum at most `K`;
and if valid cut points exist but none is feasible, the chosen index is
the last valid cut point (whose suffix still exceeds `K`). -/
theorem chooseTurnAwareCutIndex_budget (est : Msg → Nat)
    (messages : List Msg) (K : Nat) :
    ((∃ i ∈ validCutPoints messages, suffixTokens est messages i ≤ K) →
      suffixTokens est messages (chooseTurnAwareCutIndex est messages K) ≤ K) ∧
    (validCutPoints messages ≠ [] →
      (∀ i ∈ validCutPoints messages, K < suffixTokens est messages i) →
      chooseTurnAwareCutIndex est messages K =
        (validCutPoints messages).getLastD 0) := by
  constructor
  · rintro ⟨i, hiV, hiK⟩
    unfold chooseTurnAwareCutIndex
    by_cases hlen : messages.length = 0
    · have : messages = [] := List.length_eq_zero.mp hlen
      subst this
      simp [suffixTokens, estimateMessagesTokens]
    by_cases htot : estimateMessagesTokens est messages ≤ K
    · simp only [hlen, htot, if_false, ite_true, if_true]
      simpa [suffixTokens] using htot
    have hV : ¬ (validCutPoints messages).isEmpty := by
      intro hemp
      rw [List.isEmpty_iff] at hemp
      rw [hemp] at hiV
      exact absurd hiV (List.not_mem_nil i)
    simp only [hlen, htot, hV, if_false, if_neg, ite_false]
    have hiF : i ∈ (validCutPoints messages).filter
        (fun j => suffixTokens est messages j ≤ K) := by
      rw [List.mem_filter]
      exact ⟨hiV, by simpa using hiK⟩
    cases hF : (validCutPoints messages).filter
        (fun j => suffixTokens est messages j ≤ K) with
    | nil => rw [hF] at hiF; exact absurd hiF (List.not_mem_nil i)
    | cons f0 fr =>
      simp only
      cases hT : (f0 :: fr).filter
          (fun j => isTurnBoundaryRole (messages.getD j defaultMsg).role) with
      | nil =>
        have : f0 ∈ (validCutPoints messages).filter
            (fun j => suffixTokens est messages j ≤ K) := by
          rw [hF]; exact List.mem_cons_self f0 fr
        rw [List.mem_filter] at this
        simpa using this.2
      | cons t0 tr =>
        have ht0 : t0 ∈ (f0 :: fr).filter
            (fun j => isTurnBoundaryRole (messages.getD j defaultMsg).role) := by
          rw [hT]; exact List.mem_cons_self t0 tr
        rw [List.mem_filter] at ht0
        have : t0 ∈ (validCutPoints messages).filter
            (fun j => suffixTokens est messages j ≤ K) := by
          rw [hF]; exact ht0.1
        rw [List.mem_filter] at this
        simpa using this.2
  · intro hVne hall
    unfold chooseTurnAwareCutIndex
    by_cases hlen : messages.length = 0
    · exfalso
      have : messages = [] := List.length_eq_zero.mp hlen
      subst this
      exact hVne (by simp [validCutPoints])
    by_cases htot : estimateMessagesTokens est messages ≤ K
    · exfalso
      obtain ⟨i, hiV⟩ := List.exists_mem_of_ne_nil _ hVne
      exact absurd (le_trans (suffixTokens_le_total est messages i) htot)
        (not_le.mpr (hall i hiV))
    have hV : ¬ (validCutPoints messages).isEmpty := by
      simpa [List.isEmpty_iff] using hVne
    have hF : (validCutPoints messages).filter
        (fun j => suffixTokens est messages j ≤ K) = [] := by
      rw [List.filter_eq_nil_iff]
      intro j hjV
      simpa using not_le.mpr (hall j hjV)
    simp only [hlen, htot, hV, hF, if_false, ite_false]
    simp

/-- Sample messages used to instantiate theorems with hypotheses on
concrete inputs. -/
def userMsg (t : Nat) : Msg := { role := "user", tokens := t }

def assistantMsg (t : Nat) (uids : List String := []) : Msg :=
  { role := "assistant", toolUseIds := uids, tokens := t }

def toolResultMsg (id : String) (t : Nat) : Msg :=
  { role := "toolResult", toolCallId := some id, tokens := t }

theorem chooseTurnAwareCutIndex_budget_witness :
    suffixTokens Msg.tokens [userMsg 10, userMsg 1]
        (chooseTurnAwareCutIndex Msg.tokens [userMsg 10, userMsg 1] 5) ≤ 5 ∧
      chooseTurnAwareCutIndex Msg.tokens [userMsg 10, userMsg 10] 5 =
        (validCutPoints [userMsg 10, userMsg 10]).getLastD 0 :=
  ⟨(chooseTurnAwareCutIndex_budget Msg.tokens [userMsg 10, userMsg 1] 5).1
      ⟨1, by decide, by decide⟩,
   (chooseTurnAwareCutIndex_budget Msg.tokens [userMsg 10, userMsg 10] 5).2
      (by decide) (by decide)⟩

theorem repairGo_pairing :
    ∀ (l : List Msg) (ids : List String),
      ∀ m ∈ repairGo ids l, m.role = "toolResult" →
        ∃ cid, m.toolCallId = some cid ∧
          (cid ∈ ids ∨ ∃ m' ∈ repairGo ids l, cid ∈ m'.toolUseIds) := by
  intro l
  induction l with
  | nil => intro ids m hm; exact absurd hm (List.not_mem_nil m)
  | cons m0 rest ih =>
    intro ids m hm hrole
    by_cases h0 : m0.role = "toolResult"
    · cases hc : m0.toolCallId with
      | some id0 =>
        by_cases hin : id0 ∈ ids
        · simp only [repairGo, if_pos h0, hc, if_pos hin] at hm ⊢
          rcases List.mem_cons.mp hm with rfl | hm'
          · exact ⟨id0, hc, Or.inl hin⟩
          · rcases ih ids m hm' hrole with ⟨cid, hid, hcase⟩
            refine ⟨cid, hid, hcase.imp (fun h => h)
              (fun ⟨m', hm'', hidm⟩ => ⟨m', List.mem_cons_of_mem m0 hm'', hidm⟩)⟩
        · simp only [repairGo, if_pos h0, hc, if_neg hin] at hm ⊢
          rcases ih ids m hm hrole with ⟨cid, hid, hcase⟩
          exact ⟨cid, hid, hcase⟩
      | none =>
        simp only [repairGo, if_pos h0, hc] at hm ⊢
        rcases ih ids m hm hrole with ⟨cid, hid, hcase⟩
        exact ⟨cid, hid, hcase⟩
    · simp only [repairGo, if_neg h0] at hm ⊢
      rcases List.mem_cons.mp hm with rfl | hm'
      · exact absurd hrole h0
      · rcases ih (ids ++ m0.toolUseIds) m hm' hrole with ⟨cid, hid, hcase⟩
        refine ⟨cid, hid, ?_⟩
        rcases hcase with hid_in | ⟨m', hm'', hidm⟩
        · rcases List.mem_append.mp hid_in with h | h
          · exact Or.inl h
          · exact Or.inr ⟨m0, List.mem_cons_self m0 _, h⟩
        · exact Or.inr ⟨m', List.mem_cons_of_mem m0 hm'', hidm⟩

theorem getLastD_mem_of_ne_nil (l : List Nat) (h : l ≠ []) :
    l.getLastD 0 ∈ l := by
  cases l with
  | nil => exact absurd rfl h
  | cons a t =>
    rw [List.getLastD_cons]
    exact List.getLastD_mem_cons t a

theorem chooseTurnAwareCutIndex_mem (est : Msg → Nat) (messages : List Msg)
    (K : Nat) :
    chooseTurnAwareCutIndex est messages K = 0 ∨
      chooseTurnAwareCutIndex est messages K = messages.length ∨
      chooseTurnAwareCutIndex est messages K ∈ validCutPoints messages := by
  unfold chooseTurnAwareCutIndex
  by_cases hlen : messages.length = 0
  · simp [hlen]
  by_cases htot : estimateMessagesTokens est messages ≤ K
  · simp [hlen, htot]
  by_cases hV : (validCutPoints messages).isEmpty
  · simp [hlen, htot, hV]
  simp only [hlen, htot, hV, if_false, ite_false]
  cases hF : (validCutPoints messages).filter
      (fun j => suffixTokens est messages j ≤ K) with
  | nil =>
    refine Or.inr (Or.inr ?_)
    exact getLastD_mem_of_ne_nil _ (by simpa [List.isEmpty_iff] using hV)
  | cons f0 fr =>
    simp only
    cases hT : (f0 :: fr).filter
        (fun j => isTurnBoundaryRole (messages.getD j defaultMsg).role) with
    | nil =>
      refine Or.inr (Or.inr ?_)
      have : f0 ∈ (validCutPoints messages).filter
          (fun j => suffixTokens est messages j ≤ K) := by
        rw [hF]; exact List.mem_cons_self f0 fr
      exact (List.mem_filter.mp this).1
    | cons t0 tr =>
      refine Or.inr (Or.inr ?_)
      have ht0 : t0 ∈ (f0 :: fr).filter
          (fun j => isTurnBoundaryRole (messages.getD j defaultMsg).role) := by
        rw [hT]; exact List.mem_cons_self t0 tr
      have : t0 ∈ (validCutPoints messages).filter
          (fun j => suffixTokens est messages j ≤ K) := by
        rw [hF]; exact (List.mem_filter.mp ht0).1
      exact (List.mem_filter.mp this).1

theorem mem_validCutPoints {messages : List Msg} {i : Nat}
    (h : i ∈ validCutPoints messages) :
    i < messages.length ∧ (messages.getD i defaultMsg).role ≠ "toolResult" := by
  unfold validCutPoints at h
  rcases List.mem_filter.mp h with ⟨hr, hp⟩
  refine ⟨List.mem_range.mp hr, ?_⟩
  simpa [isValidCutPoint] using hp

/-- C1, amended: the claim as stated fails when no prefix is dropped
(the history is returned verbatim, even if it already begins with an
orphan toolResult). Whenever the result is not the verbatim input, the
kept list never begins with a toolResult and every kept toolResult has
its matching toolCall message also in the kept list. The pairing repair
is modelled from the spec (see `repairToolUseResultPairing`). -/
theorem pruneHistory_pairing_invariant (est : Msg → Nat)
    (messages : List Msg) (maxContextTokens : Nat) :
    (pruneHistoryForContextShare est messages maxContextTokens).messages
        = messages ∨
      ((∀ m, (pruneHistoryForContextShare est messages
            maxContextTokens).messages.head? = some m →
          m.role ≠ "toolResult") ∧
        (∀ m ∈ (pruneHistoryForContextShare est messages
            maxContextTokens).messages, m.role = "toolResult" →
          ∃ cid, m.toolCallId = some cid ∧
            ∃ m' ∈ (pruneHistoryForContextShare est messages
              maxContextTokens).messages, cid ∈ m'.toolUseIds)) := by
  unfold pruneHistoryForContextShare
  set budget := max 1 (maxContextTokens / 2) with hbudget
  by_cases hc : chooseTurnAwareCutIndex est messages budget = 0
  · left; simp [hc]
  · right
    simp only [hc, if_neg, ite_false]
    constructor
    · -- the kept list never begins with a toolResult
      intro m hm
      rcases chooseTurnAwareCutIndex_mem est messages budget with h0 | hlen | hmem
      · exact absurd h0 hc
      · rw [repairToolUseResultPairing] at hm
        simp only at hm
        rw [hlen, List.drop_length] at hm
        simp [repairGo] at hm
      · rcases mem_validCutPoints hmem with ⟨hlt, hrole⟩
        rw [repairToolUseResultPairing] at hm
        simp only at hm
        rw [List.drop_eq_getElem_cons hlt] at hm
        rw [repairGo, if_neg (by simpa [List.getD, List.getElem?_eq_getElem hlt]
          using hrole)] at hm
        simp only [List.head?_cons, Option.some_inj] at hm
        subst hm
        simpa [List.getD, List.getElem?_eq_getElem hlt] using hrole
    · -- every kept toolResult has its matching toolCall kept
      intro m hm hrole
      rw [repairToolUseResultPairing] at hm
      simp only at hm
      rcases repairGo_pairing _ [] m hm hrole with ⟨cid, hcid, hcase⟩
      rcases hcase with h | ⟨m', hm', hid⟩
      · exact absurd h (List.not_mem_nil cid)
      · exact ⟨cid, hcid, m', by simpa [repairToolUseResultPairing] using hm', hid⟩

/-- C1 counterexample: a history consisting of one orphan toolResult that
fits the budget is returned unchanged, so the kept list begins with a
toolResult whose matching toolCall is not kept. -/
theorem pruneHistory_pairing_cex :
    (pruneHistoryForContextShare Msg.tokens [toolResultMsg "a" 1]
        10).messages.head? = some (toolResultMsg "a" 1) ∧
      (toolResultMsg "a" 1).role = "toolResult" ∧
      (toolResultMsg "a" 1).toolUseIds = [] := by decide

theorem head_le_of_sorted {a : Nat} {t : List Nat}
    (hs : List.Pairwise (· < ·) (a :: t)) {x : Nat} (hx : x ∈ a :: t) :
    a ≤ x := by
  rcases List.mem_cons.mp hx with rfl | hx'
  · exact le_refl x
  · exact le_of_lt ((List.pairwise_cons.mp hs).1 x hx')

theorem le_getLastD_of_sorted :
    ∀ {l : List Nat}, List.Pairwise (· < ·) l → ∀ {x : Nat}, x ∈ l →
      x ≤ l.getLastD 0 := by
  intro l
  induction l with
  | nil => intro _ x hx; exact absurd hx (List.not_mem_nil x)
  | cons a t ih =>
    intro hs x hx
    cases t with
    | nil =>
      rcases List.mem_cons.mp hx with rfl | hx'
      · simp [List.getLastD]
      · exact absurd hx' (List.not_mem_nil x)
    | cons b t' =>
      have htail := (List.pairwise_cons.mp hs).2
      have hlast_mem : (b :: t').getLastD 0 ∈ b :: t' :=
        getLastD_mem_of_ne_nil _ (by simp)
      have hEq : (a :: b :: t').getLastD 0 = (b :: t').getLastD 0 := by
        simp [List.getLastD_cons]
      rw [hEq]
      rcases List.mem_cons.mp hx with rfl | hx'
      · exact le_of_lt ((List.pairwise_cons.mp hs).1 _ hlast_mem)
      · exact ih htail hx'

theorem validCutPoints_sorted (messages : List Msg) :
    List.Pairwise (· < ·) (validCutPoints messages) :=
  (List.pairwise_lt_range messages.length).filter _

theorem filter_sub_of_imp {l : List Nat} {p q : Nat → Bool}
    (h : ∀ x ∈ l, p x = true → q x = true) : l.filter p ⊆ l.filter q := by
  intro x hx
  rcases List.mem_filter.mp hx with ⟨hm, hp⟩
  exact List.mem_filter.mpr ⟨hm, h x hm hp⟩

theorem chooseTurnAwareCutIndex_antitone (est : Msg → Nat)
    (messages : List Msg) {K1 K2 : Nat} (hK : K1 ≤ K2) :
    chooseTurnAwareCutIndex est messages K2 ≤
      chooseTurnAwareCutIndex est messages K1 := by
  unfold chooseTurnAwareCutIndex
  by_cases hlen : messages.length = 0
  · simp [hlen]
  by_cases htot2 : estimateMessagesTokens est messages ≤ K2
  · simp only [hlen, htot2, if_false, if_true, ite_true, ite_false]
    exact Nat.zero_le _
  have htot1 : ¬ estimateMessagesTokens est messages ≤ K1 :=
    fun h => htot2 (le_trans h hK)
  by_cases hV : (validCutPoints messages).isEmpty
  · simp [hlen, htot1, htot2, hV]
  simp only [hlen, htot1, htot2, hV, if_false, ite_false]
  have hVs := validCutPoints_sorted messages
  have hsubF : (validCutPoints messages).filter
      (fun j => suffixTokens est messages j ≤ K1) ⊆
        (validCutPoints messages).filter
      (fun j => suffixTokens est messages j ≤ K2) :=
    filter_sub_of_imp (fun x _ hx => by
      simp only [decide_eq_true_eq] at hx ⊢
      exact le_trans hx hK)
  cases hF2 : (validCutPoints messages).filter
      (fun j => suffixTokens est messages j ≤ K2) with
  | nil =>
    have hF1 : (validCutPoints messages).filter
        (fun j => suffixTokens est messages j ≤ K1) = [] :=
      List.subset_nil.mp (hF2 ▸ hsubF)
    rw [hF1]
  | cons f2 fr2 =>
    have hF2s : List.Pairwise (· < ·) (f2 :: fr2) := hF2 ▸ hVs.filter _
    cases hF1 : (validCutPoints messages).filter
        (fun j => suffixTokens est messages j ≤ K1) with
    | nil =>
      -- K1-side falls back to the last valid cut point; the K2-side choice
      -- is a valid cut point, hence at most the last one
      cases hT2 : (f2 :: fr2).filter
          (fun j => isTurnBoundaryRole (messages.getD j defaultMsg).role) with
      | nil =>
        simp only
        have hf2V : f2 ∈ validCutPoints messages := by
          have : f2 ∈ (validCutPoints messages).filter
              (fun j => suffixTokens est messages j ≤ K2) := by
            rw [hF2]; exact List.mem_cons_self f2 fr2
          exact (List.mem_filter.mp this).1
        exact le_getLastD_of_sorted hVs hf2V
      | cons t2 tr2 =>
        simp only
        have ht2F2 : t2 ∈ f2 :: fr2 := by
          have : t2 ∈ (f2 :: fr2).filter
              (fun j => isTurnBoundaryRole (messages.getD j defaultMsg).role) := by
            rw [hT2]; exact List.mem_cons_self t2 tr2
          exact (List.mem_filter.mp this).1
        have ht2V : t2 ∈ validCutPoints messages := by
          have : t2 ∈ (validCutPoints messages).filter
              (fun j => suffixTokens est messages j ≤ K2) := by
            rw [hF2]; exact ht2F2
          exact (List.mem_filter.mp this).1
        exact le_getLastD_of_sorted hVs ht2V
    | cons f1 fr1 =>
      have hF1s : List.Pairwise (· < ·) (f1 :: fr1) := hF1 ▸ hVs.filter _
      have hsubF12 : (f1 :: fr1) ⊆ (f2 :: fr2) := by
        rw [← hF1, ← hF2]
        exact hsubF
      have hf1_mem_F2 : f1 ∈ f2 :: fr2 := hsubF12 (List.mem_cons_self f1 fr1)
      cases hT1 : (f1 :: fr1).filter
          (fun j => isTurnBoundaryRole (messages.getD j defaultMsg).role) with
      | nil =>
        cases hT2 : (f2 :: fr2).filter
            (fun j => isTurnBoundaryRole (messages.getD j defaultMsg).role) with
        | nil =>
          -- both sides pick the earliest feasible candidate
          simp only
          exact head_le_of_sorted hF2s hf1_mem_F2
        | cons t2 tr2 =>
          -- the K2-side picks a turn boundary t2 that was infeasible at K1,
          -- hence t2 is strictly earlier than f1
          simp only
          have ht2F2 : t2 ∈ f2 :: fr2 := by
            have : t2 ∈ (f2 :: fr2).filter
                (fun j => isTurnBoundaryRole (messages.getD j defaultMsg).role) := by
              rw [hT2]; exact List.mem_cons_self t2 tr2
            exact (List.mem_filter.mp this).1
          have ht2TB : isTurnBoundaryRole (messages.getD t2 defaultMsg).role = true := by
            have : t2 ∈ (f2 :: fr2).filter
                (fun j => isTurnBoundaryRole (messages.getD j defaultMsg).role) := by
              rw [hT2]; exact List.mem_cons_self t2 tr2
            simpa using (List.mem_filter.mp this).2
          have ht2V : t2 ∈ validCutPoints messages := by
            have := ht2F2
            rw [← hF2] at this
            exact (List.mem_filter.mp this).1
          have ht2_not_F1 : t2 ∉ f1 :: fr1 := by
            intro hmem
            have : t2 ∈ (f1 :: fr1).filter
                (fun j => isTurnBoundaryRole (messages.getD j defaultMsg).role) :=
              List.mem_filter.mpr ⟨hmem, by simpa using ht2TB⟩
            rw [hT1] at this
            exact absurd this (List.not_mem_nil t2)
          have ht2_infeasible : K1 < suffixTokens est messages t2 := by
            by_contra hle
            push_neg at hle
            exact ht2_not_F1 (by
              rw [← hF1]
              exact List.mem_filter.mpr ⟨ht2V, by simpa using hle⟩)
          have hf1_feasible : suffixTokens est messages f1 ≤ K1 := by
            have : f1 ∈ (validCutPoints messages).filter
                (fun j => suffixTokens est messages j ≤ K1) := by
              rw [hF1]; exact List.mem_cons_self f1 fr1
            simpa using (List.mem_filter.mp this).2
          -- suffix sums are antitone in the index, so t2 < f1
          by_contra hgt
          push_neg at hgt
          exact absurd (suffixTokens_antitone est messages (le_of_lt hgt))
            (not_le.mpr (lt_of_le_of_lt hf1_feasible ht2_infeasible))
      | cons t1 tr1 =>
        have ht1T2 : t1 ∈ (f2 :: fr2).filter
            (fun j => isTurnBoundaryRole (messages.getD j defaultMsg).role) := by
          have ht1 : t1 ∈ (f1 :: fr1).filter
              (fun j => isTurnBoundaryRole (messages.getD j defaultMsg).role) := by
            rw [hT1]; exact List.mem_cons_self t1 tr1
          rcases List.mem_filter.mp ht1 with ⟨hmem, htb⟩
          exact List.mem_filter.mpr ⟨hsubF12 hmem, htb⟩
        cases hT2 : (f2 :: fr2).filter
            (fun j => isTurnBoundaryRole (messages.getD j defaultMsg).role) with
        | nil =>
          rw [hT2] at ht1T2
          exact absurd ht1T2 (List.not_mem_nil t1)
        | cons t2 tr2 =>
          simp only
          have hT2s : List.Pairwise (· < ·) (t2 :: tr2) := hT2 ▸ hF2s.filter _
          rw [hT2] at ht1T2
          exact head_le_of_sorted hT2s ht1T2

theorem repairGo_length_le : ∀ (l : List Msg) (ids : List String),
    (repairGo ids l).length ≤ l.length := by
  intro l
  induction l with
  | nil => intro ids; simp [repairGo]
  | cons m rest ih =>
    intro ids
    by_cases h0 : m.role = "toolResult"
    · cases hc : m.toolCallId with
      | some id0 =>
        by_cases hin : id0 ∈ ids
        · simp only [repairGo, if_pos h0, hc, if_pos hin, List.length_cons]
          exact Nat.succ_le_succ (ih ids)
        · simp only [repairGo, if_pos h0, hc, if_neg hin, List.length_cons]
          exact le_trans (ih ids) (Nat.le_succ _)
      | none =>
        simp only [repairGo, if_pos h0, hc, List.length_cons]
        exact le_trans (ih ids) (Nat.le_succ _)
    · simp only [repairGo, if_neg h0, List.length_cons]
      exact Nat.succ_le_succ (ih _)

theorem repairGo_length_mono : ∀ (l : List Msg) (ids1 ids2 : List String),
    ids1 ⊆ ids2 →
    (repairGo ids1 l).length ≤ (repairGo ids2 l).length := by
  intro l
  induction l with
  | nil => intro ids1 ids2 _; simp [repairGo]
  | cons m rest ih =>
    intro ids1 ids2 hsub
    by_cases h0 : m.role = "toolResult"
    · cases hc : m.toolCallId with
      | some id0 =>
        by_cases hin1 : id0 ∈ ids1
        · have hin2 : id0 ∈ ids2 := hsub hin1
          simp only [repairGo, if_pos h0, hc, if_pos hin1, if_pos hin2,
            List.length_cons]
          exact Nat.succ_le_succ (ih ids1 ids2 hsub)
        · by_cases hin2 : id0 ∈ ids2
          · simp only [repairGo, if_pos h0, hc, if_neg hin1, if_pos hin2,
              List.length_cons]
            exact le_trans (ih ids1 ids2 hsub) (Nat.le_succ _)
          · simp only [repairGo, if_pos h0, hc, if_neg hin1, if_neg hin2]
            exact ih ids1 ids2 hsub
      | none =>
        simp only [repairGo, if_pos h0, hc]
        exact ih ids1 ids2 hsub
    · simp only [repairGo, if_neg h0, List.length_cons]
      refine Nat.succ_le_succ (ih _ _ ?_)
      exact List.append_subset.mpr ⟨fun y hy => List.mem_append_left _ (hsub hy),
        fun y hy => List.mem_append_right _ hy⟩

theorem repairGo_drop_le : ∀ (l : List Msg) (k : Nat) (ids : List String),
    (repairGo [] (l.drop k)).length ≤ (repairGo ids l).length := by
  intro l
  induction l with
  | nil => intro k ids; simp [repairGo]
  | cons m rest ih =>
    intro k ids
    cases k with
    | zero =>
      simp only [List.drop_zero]
      exact repairGo_length_mono (m :: rest) [] ids (List.nil_subset ids)
    | succ j =>
      simp only [List.drop_succ_cons]
      by_cases h0 : m.role = "toolResult"
      · cases hc : m.toolCallId with
        | some id0 =>
          by_cases hin : id0 ∈ ids
          · simp only [repairGo, if_pos h0, hc, if_pos hin, List.length_cons]
            exact le_trans (ih j ids) (Nat.le_succ _)
          · simp only [repairGo, if_pos h0, hc, if_neg hin]
            exact ih j ids
        | none =>
          simp only [repairGo, if_pos h0, hc]
          exact ih j ids
      · simp only [repairGo, if_neg h0, List.length_cons]
        exact le_trans (ih j _) (Nat.le_succ _)

/-- C7: for every history, estimator and budgets `K1 ≤ K2`, the number of
messages kept by `pruneHistoryForContextShare` at the larger budget is at
least the number kept at the smaller budget (monotonicity). The pairing
repair applied to the kept suffix is modelled from the spec
(see `repairToolUseResultPairing`). -/
theorem pruneHistory_kept_count_monotone (est : Msg → Nat)
    (messages : List Msg) {K1 K2 : Nat} (hK : K1 ≤ K2) :
    (pruneHistoryForContextShare est messages K1).messages.length ≤
      (pruneHistoryForContextShare est messages K2).messages.length := by
  have hbud : max 1 (K1 / 2) ≤ max 1 (K2 / 2) :=
    max_le_max (le_refl 1) (Nat.div_le_div_right hK)
  have hcut : chooseTurnAwareCutIndex est messages (max 1 (K2 / 2)) ≤
      chooseTurnAwareCutIndex est messages (max 1 (K1 / 2)) :=
    chooseTurnAwareCutIndex_antitone est messages hbud
  unfold pruneHistoryForContextShare
  by_cases hc2 : chooseTurnAwareCutIndex est messages (max 1 (K2 / 2)) = 0
  · simp only [hc2, if_pos, ite_true]
    by_cases hc1 : chooseTurnAwareCutIndex est messages (max 1 (K1 / 2)) = 0
    · simp [hc1]
    · simp only [hc1, if_neg, ite_false]
      refine le_trans (repairGo_length_le _ _) ?_
      rw [List.length_drop]
      omega
  · have hc1 : chooseTurnAwareCutIndex est messages (max 1 (K1 / 2)) ≠ 0 := by
      intro h
      exact hc2 (Nat.le_zero.mp (h ▸ hcut))
    simp only [hc1, hc2, if_neg, ite_false]
    have hdrop : messages.drop
        (chooseTurnAwareCutIndex est messages (max 1 (K1 / 2))) =
          (messages.drop (chooseTurnAwareCutIndex est messages
            (max 1 (K2 / 2)))).drop
          (chooseTurnAwareCutIndex est messages (max 1 (K1 / 2)) -
            chooseTurnAwareCutIndex est messages (max 1 (K2 / 2))) := by
      rw [List.drop_drop]
      congr 1
      omega
    simp only [repairToolUseResultPairing]
    rw [hdrop]
    exact repairGo_drop_le _ _ []

theorem pruneHistory_kept_count_monotone_witness :
    (pruneHistoryForContextShare Msg.tokens
        [userMsg 4, userMsg 3] 6).messages.length ≤
      (pruneHistoryForContextShare Msg.tokens
        [userMsg 4, userMsg 3] 20).messages.length :=
  pruneHistory_kept_count_monotone Msg.tokens [userMsg 4, userMsg 3]
    (by decide)

/-- A UTF-16 high surrogate code unit (0xD800–0xDBFF). -/
def isHighSurrogate (c : Nat) : Bool := 55296 ≤ c ∧ c ≤ 56319

/-- A UTF-16 low surrogate code unit (0xDC00–0xDFFF). -/
def isLowSurrogate (c : Nat) : Bool := 56320 ≤ c ∧ c ≤ 57343

/-- The UTF-16 code units of a Lean string: scalar values above 0xFFFF
become a surrogate pair, exactly as a JavaScript string stores them. -/
def utf16Units (s : String) : List Nat :=
  s.data.flatMap (fun ch =>
    let v := ch.toNat
    if v < 65536 then [v]
    else [55296 + (v - 65536) / 1024, 56320 + (v - 65536) % 1024])

/-- `Buffer.byteLength(s, "utf8")` over UTF-16 code units: a surrogate
pair encodes as 4 bytes, a lone surrogate as the 3-byte replacement
character (Node behaviour), other units by code-point range. -/
def utf8Len : List Nat → Nat
  | [] => 0
  | c :: rest =>
    if isHighSurrogate c then
      match rest with
      | [] => 3
      | d :: rest2 =>
        if isLowSurrogate d then 4 + utf8Len rest2 else 3 + utf8Len (d :: rest2)
    else if c < 128 then 1 + utf8Len rest
    else if c < 2048 then 2 + utf8Len rest
    else 3 + utf8Len rest

/-- `countLines` (tool-output-hard-cap.ts:10): 0 for the empty string,
else 1 plus the number of newline code units. -/
def countLines (s : List Nat) : Nat :=
  if s = [] then 0 else 1 + s.count 10

/-- Well-formedness state machine for UTF-16: `expectLow = true` when the
previous unit was an unmatched high surrogate. Accepts exactly the unit
lists with no unpaired surrogate. -/
def wfGo : Bool → List Nat → Bool
  | expectLow, [] => !expectLow
  | true, c :: rest => isLowSurrogate c && wfGo false rest
  | false, c :: rest =>
    if isHighSurrogate c then wfGo true rest
    else !isLowSurrogate c && wfGo false rest

/-- A code-unit list with no unpaired UTF-16 surrogate. -/
def wfUtf16 (s : List Nat) : Bool := wfGo false s

/-- Body of the `sliceToMaxLines` loop (tool-output-hard-cap.ts:36):
keep code units until the `k`-th newline (exclusive); when fewer newlines
exist the whole remainder is kept, as in the source's `indexOf` loop. -/
def takeLines : Nat → List Nat → List Nat
  | _, [] => []
  | k, c :: rest =>
    if c = 10 then
      if k ≤ 1 then [] else c :: takeLines (k - 1) rest
    else
      c :: takeLines k rest

/-- `sliceToMaxLines` (tool-output-hard-cap.ts:23). -/
def sliceToMaxLines (text : List Nat) (maxLines : Nat) : List Nat :=
  if text = [] then text
  else if maxLines = 0 then []
  else if countLines text ≤ maxLines then text
  else takeLines maxLines text

/-- Modelled from the spec: `truncateUtf16Safe` (`src/utils.ts`, not part
of the corpus; `sliceToMaxUtf8Bytes` is its only caller here). Per the
spec ("binary-search the largest UTF-16 offset ... snapping to a
surrogate-pair boundary", "never splitting a UTF-16 surrogate pair"):
truncate to at most `n` code units, and when the cut would end on a high
surrogate, drop that high surrogate as well. -/
def truncateUtf16Safe (s : List Nat) (n : Nat) : List Nat :=
  if s.length ≤ n then s
  else if 0 < n ∧ isHighSurrogate (s.getD (n - 1) 0) then s.take (n - 1)
  else s.take n

/-- The `while (lo < hi)` binary search of `sliceToMaxUtf8Bytes`
(tool-output-hard-cap.ts:62), with an explicit iteration bound: each
step shrinks `hi - lo`, so any `fuel ≥ hi - lo` makes this identical to
the source loop; callers pass `fuel = s.length`. Returns the final `lo`. -/
def sliceSearchFuel (s : List Nat) (limit : Nat) :
    Nat → Nat → Nat → Nat
  | 0, lo, _ => lo
  | fuel + 1, lo, hi =>
    if lo < hi then
      let mid := (lo + hi + 1) / 2
      if utf8Len (truncateUtf16Safe s mid) ≤ limit then
        sliceSearchFuel s limit fuel mid hi
      else
        sliceSearchFuel s limit fuel lo (mid - 1)
    else lo

/-- `sliceToMaxUtf8Bytes` (tool-output-hard-cap.ts:50). -/
def sliceToMaxUtf8Bytes (text : List Nat) (maxBytes : Nat) : List Nat :=
  if text = [] then text
  else if utf8Len text ≤ maxBytes then text
  else if maxBytes = 0 then []
  else truncateUtf16Safe text
    (sliceSearchFuel text maxBytes text.length 0 text.length)

/-- `DEFAULT_TRUNCATION_SUFFIX` (tool-output-hard-cap.ts:6). -/
def DEFAULT_TRUNCATION_SUFFIX : List Nat :=
  utf16Units ("⚠️ [Tool output truncated - exceeded hard limit " ++
    "(50KB / 2000 lines). Request specific sections or use offset/limit " ++
    "parameters.]")

structure TruncResult where
  text : List Nat
  truncated : Bool
deriving DecidableEq, Repr

/-- `hardTruncateText` (tool-output-hard-cap.ts:77), with `maxBytes`,
`maxLines` and `suffix` explicit (the defaults are
`TOOL_OUTPUT_HARD_MAX_BYTES = 50 * 1024`,
`TOOL_OUTPUT_HARD_MAX_LINES = 2000` and `DEFAULT_TRUNCATION_SUFFIX`;
`Math.max(0, maxBytes - suffixBytes)` is Nat subtraction). -/
def hardTruncateText (text : List Nat) (maxBytes maxLines : Nat)
    (suffix : List Nat := DEFAULT_TRUNCATION_SUFFIX) : TruncResult :=
  let withinLines := countLines text ≤ maxLines
  let withinBytes := utf8Len text ≤ maxBytes
  if withinLines ∧ withinBytes then ⟨text, false⟩
  else
    let suffixBytes := utf8Len (10 :: suffix)
    let suffixLines := countLines suffix
    let availableBytes := maxBytes - suffixBytes
    let availableLines := maxLines - suffixLines
    let trimmed := sliceToMaxUtf8Bytes (sliceToMaxLines text availableLines)
      availableBytes
    let suffixText := if trimmed = [] then suffix else 10 :: suffix
    ⟨trimmed ++ suffixText, true⟩

theorem wfGo_append : ∀ (a b : List Nat) (st : Bool),
    wfGo st a = true → wfGo false b = true →
    (∀ c, b.head? = some c → isLowSurrogate c = false) →
    wfGo st (a ++ b) = true := by
  intro a
  induction a with
  | nil =>
    intro b st ha hb _
    cases st with
    | false => simpa using hb
    | true => simp [wfGo] at ha
  | cons c rest ih =>
    intro b st ha hb hhead
    cases st with
    | true =>
      rw [wfGo] at ha
      rcases Bool.and_eq_true_iff.mp ha with ⟨hlow, hrest⟩
      show wfGo true (c :: (rest ++ b)) = true
      rw [wfGo]
      exact Bool.and_eq_true_iff.mpr ⟨hlow, ih b false hrest hb hhead⟩
    | false =>
      rw [wfGo] at ha
      show wfGo false (c :: (rest ++ b)) = true
      rw [wfGo]
      by_cases hhigh : isHighSurrogate c = true
      · rw [if_pos hhigh] at ha ⊢
        exact ih b true ha hb hhead
      · rw [if_neg hhigh] at ha ⊢
        rcases Bool.and_eq_true_iff.mp ha with ⟨hnl, hrest⟩
        exact Bool.and_eq_true_iff.mpr ⟨hnl, ih b false hrest hb hhead⟩

theorem wf_low_after_high : ∀ (s : List Nat) (st : Bool) (j : Nat) (c : Nat),
    wfGo st s = true → s.get? (j + 1) = some c → isLowSurrogate c = true →
    isHighSurrogate (s.getD j 0) = true := by
  intro s
  induction s with
  | nil => intro st j c _ hg; simp at hg
  | cons a rest ih =>
    intro st j c hwf hg hlow
    cases j with
    | zero =>
      simp only [List.get?_cons_succ] at hg
      cases hrest : rest with
      | nil => rw [hrest] at hg; simp at hg
      | cons b t =>
        rw [hrest] at hg
        simp only [List.get?_cons_zero, Option.some_inj] at hg
        subst hg
        cases st with
        | true =>
          rw [wfGo] at hwf
          rcases Bool.and_eq_true_iff.mp hwf with ⟨_, hrest'⟩
          rw [hrest, wfGo] at hrest'
          by_cases hhigh : isHighSurrogate b = true
          · -- the unit is both a high and a low surrogate: impossible
            rw [if_pos hhigh] at hrest'
            exfalso
            simp [isHighSurrogate, isLowSurrogate] at hhigh hlow
            omega
          · rw [if_neg hhigh] at hrest'
            rcases Bool.and_eq_true_iff.mp hrest' with ⟨hnl, _⟩
            exfalso
            rw [hlow] at hnl
            simp at hnl
        | false =>
          rw [wfGo] at hwf
          by_cases hhigh : isHighSurrogate a = true
          · simpa [List.getD] using hhigh
          · rw [if_neg hhigh] at hwf
            rcases Bool.and_eq_true_iff.mp hwf with ⟨_, hrest'⟩
            rw [hrest, wfGo] at hrest'
            by_cases hch : isHighSurrogate b = true
            · exfalso
              simp [isHighSurrogate, isLowSurrogate] at hch hlow
              omega
            · rw [if_neg hch] at hrest'
              rcases Bool.and_eq_true_iff.mp hrest' with ⟨hnl, _⟩
              exfalso
              rw [hlow] at hnl
              simp at hnl
    | succ j' =>
      simp only [List.get?_cons_succ] at hg
      have hgoal : isHighSurrogate (rest.getD j' 0) = true := by
        cases st with
        | true =>
          rw [wfGo] at hwf
          rcases Bool.and_eq_true_iff.mp hwf with ⟨_, hrest⟩
          exact ih false j' c hrest hg hlow
        | false =>
          rw [wfGo] at hwf
          by_cases hhigh : isHighSurrogate a = true
          · rw [if_pos hhigh] at hwf
            exact ih true j' c hwf hg hlow
          · rw [if_neg hhigh] at hwf
            rcases Bool.and_eq_true_iff.mp hwf with ⟨_, hrest⟩
            exact ih false j' c hrest hg hlow
      simpa [List.getD] using hgoal

theorem wfGo_take : ∀ (s : List Nat) (k : Nat) (st : Bool),
    wfGo st s = true → (k ≠ 0 ∨ st = false) →
    (∀ c, s.get? k = some c → isLowSurrogate c = false) →
    wfGo st (s.take k) = true := by
  intro s
  induction s with
  | nil =>
    intro k st hwf _ _
    simpa using hwf
  | cons a rest ih =>
    intro k st hwf hside hcut
    cases k with
    | zero =>
      rcases hside with h | h
      · exact absurd rfl h
      · subst h; simp [wfGo]
    | succ j =>
      simp only [List.take_succ_cons]
      cases st with
      | true =>
        rw [wfGo] at hwf ⊢
        rcases Bool.and_eq_true_iff.mp hwf with ⟨hlow, hrest⟩
        refine Bool.and_eq_true_iff.mpr ⟨hlow, ?_⟩
        exact ih j false hrest (Or.inr rfl) (fun c hc => hcut c (by simpa using hc))
      | false =>
        rw [wfGo] at hwf ⊢
        by_cases hhigh : isHighSurrogate a = true
        · rw [if_pos hhigh] at hwf ⊢
          cases hj : j with
          | zero =>
            -- cutting immediately after a high surrogate: the next unit is
            -- its low partner, contradicting the cut-safety hypothesis
            exfalso
            cases hrest : rest with
            | nil => rw [hrest] at hwf; simp [wfGo] at hwf
            | cons b t =>
              rw [hrest, wfGo] at hwf
              rcases Bool.and_eq_true_iff.mp hwf with ⟨hlow, _⟩
              have := hcut b (by subst hj; rw [hrest]; rfl)
              rw [this] at hlow
              simp at hlow
          | succ j' =>
            subst hj
            exact ih (j' + 1) true hwf (Or.inl (by omega))
              (fun c hc => hcut c (by simpa using hc))
        · rw [if_neg hhigh] at hwf ⊢
          rcases Bool.and_eq_true_iff.mp hwf with ⟨hnl, hrest⟩
          refine Bool.and_eq_true_iff.mpr ⟨hnl, ?_⟩
          exact ih j false hrest (Or.inr rfl) (fun c hc => hcut c (by simpa using hc))

theorem wfGo_takeLines : ∀ (s : List Nat) (k : Nat) (st : Bool),
    wfGo st s = true → wfGo st (takeLines k s) = true := by
  intro s
  induction s with
  | nil => intro k st hwf; simpa [takeLines] using hwf
  | cons a rest ih =>
    intro k st hwf
    cases st with
    | true =>
      rw [wfGo] at hwf
      rcases Bool.and_eq_true_iff.mp hwf with ⟨hlow, hrest⟩
      have hne10 : ¬ (a = 10) := by
        intro h
        subst h
        simp [isLowSurrogate] at hlow
      rw [takeLines, if_neg hne10, wfGo]
      exact Bool.and_eq_true_iff.mpr ⟨hlow, ih k false hrest⟩
    | false =>
      rw [wfGo] at hwf
      by_cases hhigh : isHighSurrogate a = true
      · have hne10 : ¬ (a = 10) := by
          intro h
          subst h
          simp [isHighSurrogate] at hhigh
        rw [if_pos hhigh] at hwf
        rw [takeLines, if_neg hne10, wfGo, if_pos hhigh]
        exact ih k true hwf
      · rw [if_neg hhigh] at hwf
        rcases Bool.and_eq_true_iff.mp hwf with ⟨hnl, hrest⟩
        by_cases h10 : a = 10
        · subst h10
          rw [takeLines, if_pos rfl]
          by_cases hk : k ≤ 1
          · rw [if_pos hk]; simp [wfGo]
          · rw [if_neg hk, wfGo, if_neg hhigh]
            exact Bool.and_eq_true_iff.mpr ⟨hnl, ih (k - 1) false hrest⟩
        · rw [takeLines, if_neg h10, wfGo, if_neg hhigh]
          exact Bool.and_eq_true_iff.mpr ⟨hnl, ih k false hrest⟩

theorem utf8Len_cons (c : Nat) (rest : List Nat) :
    utf8Len (c :: rest) =
      if isHighSurrogate c then
        (match rest with
          | [] => 3
          | d :: rest2 =>
            if isLowSurrogate d then 4 + utf8Len rest2
            else 3 + utf8Len (d :: rest2))
      else if c < 128 then 1 + utf8Len rest
      else if c < 2048 then 2 + utf8Len rest
      else 3 + utf8Len rest := by
  rw [utf8Len.eq_def]

theorem utf8Len_append_aux : ∀ (n : Nat) (a : List Nat), a.length = n →
    ∀ (b : List Nat),
    (∀ c, b.head? = some c → isLowSurrogate c = false) →
    utf8Len (a ++ b) = utf8Len a + utf8Len b := by
  intro n
  induction n using Nat.strong_induction_on with
  | _ n ih =>
    intro a hn
    cases a with
    | nil => intro b _; simp [utf8Len]
    | cons c rest =>
      intro b hhead
      by_cases hhigh : isHighSurrogate c = true
      · cases rest with
        | nil =>
          rw [List.cons_append, List.nil_append]
          cases hb : b with
          | nil => simp [utf8Len, hhigh]
          | cons d t =>
            have hd : isLowSurrogate d = false := by
              apply hhead
              rw [hb]; rfl
            rw [utf8Len_cons, if_pos hhigh]
            simp only [hd]
            rw [utf8Len_cons c [], if_pos hhigh]
            simp only [Bool.false_eq_true, if_false]
        | cons d rest2 =>
          rw [List.cons_append, List.cons_append]
          by_cases hd : isLowSurrogate d = true
          · rw [utf8Len_cons, if_pos hhigh]
            simp only [hd, if_true]
            rw [utf8Len_cons c (d :: rest2), if_pos hhigh]
            simp only [hd, if_true]
            have := ih rest2.length (by subst hn; simp; omega) rest2 rfl b hhead
            omega
          · rw [utf8Len_cons, if_pos hhigh]
            simp only [hd, Bool.false_eq_true, if_false]
            rw [utf8Len_cons c (d :: rest2), if_pos hhigh]
            simp only [hd, Bool.false_eq_true, if_false]
            have := ih (d :: rest2).length (by subst hn; simp) (d :: rest2) rfl b hhead
            rw [← List.cons_append]
            omega
      · have hrest := ih rest.length (by subst hn; simp) rest rfl b hhead
        rw [List.cons_append, utf8Len_cons, utf8Len_cons c rest,
          if_neg hhigh, if_neg hhigh]
        by_cases h1 : c < 128
        · rw [if_pos h1, if_pos h1]
          omega
        · rw [if_neg h1, if_neg h1]
          by_cases h2 : c < 2048
          · rw [if_pos h2, if_pos h2]
            omega
          · rw [if_neg h2, if_neg h2]
            omega

theorem utf8Len_append (a b : List Nat)
    (hhead : ∀ c, b.head? = some c → isLowSurrogate c = false) :
    utf8Len (a ++ b) = utf8Len a + utf8Len b :=
  utf8Len_append_aux a.length a rfl b hhead

theorem countLines_take_le (s : List Nat) (k : Nat) :
    countLines (s.take k) ≤ countLines s := by
  unfold countLines
  by_cases ht : s.take k = []
  · simp [ht]
  · have hs : s ≠ [] := by
      intro h
      subst h
      simp at ht
    rw [if_neg ht, if_neg hs]
    have := (List.take_sublist k s).count_le 10
    omega

theorem takeLines_eq_take : ∀ (s : List Nat) (k : Nat),
    ∃ j, takeLines k s = s.take j := by
  intro s
  induction s with
  | nil => intro k; exact ⟨0, by simp [takeLines]⟩
  | cons c rest ih =>
    intro k
    by_cases h10 : c = 10
    · subst h10
      by_cases hk : k ≤ 1
      · exact ⟨0, by simp [takeLines, hk]⟩
      · rcases ih (k - 1) with ⟨j, hj⟩
        exact ⟨j + 1, by simp [takeLines, hk, hj]⟩
    · rcases ih k with ⟨j, hj⟩
      exact ⟨j + 1, by simp [takeLines, h10, hj]⟩

theorem takeLines_countLines : ∀ (s : List Nat) (k : Nat), 1 ≤ k →
    countLines (takeLines k s) ≤ k := by
  intro s
  induction s with
  | nil => intro k hk; simp [takeLines, countLines]
  | cons c rest ih =>
    intro k hk
    by_cases h10 : c = 10
    · subst h10
      by_cases hk1 : k ≤ 1
      · simp [takeLines, hk1, countLines]
      · rw [takeLines, if_pos rfl, if_neg hk1]
        have hk1' : 1 ≤ k - 1 := by omega
        have := ih (k - 1) hk1'
        unfold countLines at this ⊢
        by_cases ht : takeLines (k - 1) rest = []
        · simp [ht]
          omega
        · rw [if_neg ht] at this
          rw [if_neg (by simp)]
          simp only [List.count_cons]
          simp at this ⊢
          omega
    · rw [takeLines, if_neg h10]
      have := ih k hk
      have hcnt : ∀ t : List Nat, List.count 10 (c :: t) = List.count 10 t := by
        intro t
        rw [List.count_cons]
        simp [h10]
      unfold countLines at this ⊢
      by_cases ht : takeLines k rest = []
      · rw [ht]
        rw [if_neg (by simp)]
        rw [hcnt]
        simp
        omega
      · rw [if_neg ht] at this
        rw [if_neg (by simp), hcnt]
        omega

theorem sliceToMaxLines_countLines (text : List Nat) (maxLines : Nat) :
    countLines (sliceToMaxLines text maxLines) ≤ maxLines := by
  unfold sliceToMaxLines
  by_cases h0 : text = []
  · simp [h0, countLines]
  by_cases hml : maxLines = 0
  · simp [h0, hml, countLines]
  by_cases hfit : countLines text ≤ maxLines
  · simp [h0, hml, hfit]
  · simp only [h0, hml, hfit, if_false, if_neg, ite_false]
    exact takeLines_countLines text maxLines (by omega)

theorem sliceToMaxLines_eq_take (text : List Nat) (maxLines : Nat) :
    ∃ j, sliceToMaxLines text maxLines = text.take j := by
  unfold sliceToMaxLines
  by_cases h0 : text = []
  · exact ⟨0, by simp [h0]⟩
  by_cases hml : maxLines = 0
  · exact ⟨0, by simp [h0, hml]⟩
  by_cases hfit : countLines text ≤ maxLines
  · exact ⟨text.length, by simp [h0, hml, hfit]⟩
  · simp only [h0, hml, hfit, if_false, if_neg, ite_false]
    exact takeLines_eq_take text maxLines

theorem sliceToMaxLines_wf (text : List Nat) (maxLines : Nat)
    (hwf : wfUtf16 text = true) :
    wfUtf16 (sliceToMaxLines text maxLines) = true := by
  unfold sliceToMaxLines
  by_cases h0 : text = []
  · simpa [h0] using hwf
  by_cases hml : maxLines = 0
  · simp [h0, hml, wfUtf16, wfGo]
  by_cases hfit : countLines text ≤ maxLines
  · simpa [h0, hml, hfit] using hwf
  · simp only [h0, hml, hfit, if_false, if_neg, ite_false]
    exact wfGo_takeLines text maxLines false hwf

theorem truncateUtf16Safe_eq_take (s : List Nat) (n : Nat) :
    ∃ j, truncateUtf16Safe s n = s.take j := by
  unfold truncateUtf16Safe
  by_cases hlen : s.length ≤ n
  · refine ⟨s.length, ?_⟩
    rw [if_pos hlen, List.take_length]
  by_cases hcut : 0 < n ∧ isHighSurrogate (s.getD (n - 1) 0) = true
  · refine ⟨n - 1, ?_⟩
    rw [if_neg hlen, if_pos hcut]
  · refine ⟨n, ?_⟩
    rw [if_neg hlen, if_neg hcut]

theorem truncateUtf16Safe_wf (s : List Nat) (n : Nat)
    (hwf : wfUtf16 s = true) :
    wfUtf16 (truncateUtf16Safe s n) = true := by
  unfold truncateUtf16Safe
  by_cases hlen : s.length ≤ n
  · simpa [hlen] using hwf
  by_cases hcut : 0 < n ∧ isHighSurrogate (s.getD (n - 1) 0) = true
  · simp only [hlen, hcut, if_false, if_pos, ite_true, if_true]
    show wfGo false (s.take (n - 1)) = true
    refine wfGo_take s (n - 1) false hwf (Or.inr rfl) ?_
    intro c hc
    have hcd : s.getD (n - 1) 0 = c := by
      rw [List.getD_eq_getD_get?, hc]
      rfl
    by_contra hlow
    simp only [Bool.not_eq_false] at hlow
    have hhigh := hcd ▸ hcut.2
    simp [isHighSurrogate, isLowSurrogate] at hhigh hlow
    omega
  · simp only [hlen, hcut, if_false, if_neg, ite_false]
    cases hn : n with
    | zero =>
      subst hn
      simp [wfUtf16, wfGo]
    | succ n' =>
      subst hn
      show wfGo false (s.take (n' + 1)) = true
      refine wfGo_take s (n' + 1) false hwf (Or.inr rfl) ?_
      intro c hc
      by_contra hlow
      simp only [Bool.not_eq_false] at hlow
      have hhigh : isHighSurrogate (s.getD n' 0) = true :=
        wf_low_after_high s false n' c hwf hc hlow
      exact hcut ⟨by omega, by simpa using hhigh⟩

theorem sliceSearchFuel_inv (s : List Nat) (limit : Nat) :
    ∀ (fuel lo hi : Nat),
      utf8Len (truncateUtf16Safe s lo) ≤ limit →
      utf8Len (truncateUtf16Safe s (sliceSearchFuel s limit fuel lo hi)) ≤
        limit := by
  intro fuel
  induction fuel with
  | zero => intro lo hi h; simpa [sliceSearchFuel] using h
  | succ f ih =>
    intro lo hi h
    rw [sliceSearchFuel]
    by_cases hlt : lo < hi
    · rw [if_pos hlt]
      by_cases hfit : utf8Len (truncateUtf16Safe s ((lo + hi + 1) / 2)) ≤ limit
      · simp only [hfit, if_pos, ite_true, if_true]
        exact ih _ hi hfit
      · simp only [hfit, if_false, if_neg, ite_false]
        exact ih lo _ h
    · rw [if_neg hlt]
      exact h

theorem sliceToMaxUtf8Bytes_le (text : List Nat) (maxBytes : Nat) :
    utf8Len (sliceToMaxUtf8Bytes text maxBytes) ≤ maxBytes := by
  unfold sliceToMaxUtf8Bytes
  by_cases h0 : text = []
  · rw [if_pos h0, h0]
    simp [utf8Len]
  rw [if_neg h0]
  by_cases hfit : utf8Len text ≤ maxBytes
  · rw [if_pos hfit]
    exact hfit
  rw [if_neg hfit]
  by_cases hz : maxBytes = 0
  · rw [if_pos hz]
    simp [utf8Len]
  rw [if_neg hz]
  refine sliceSearchFuel_inv text maxBytes text.length 0 text.length ?_
  unfold truncateUtf16Safe
  rw [if_neg (fun h => h0 (List.length_eq_zero.mp (Nat.le_zero.mp h)))]
  rw [if_neg (by simp)]
  simp [utf8Len]

theorem sliceToMaxUtf8Bytes_eq_take (text : List Nat) (maxBytes : Nat) :
    ∃ j, sliceToMaxUtf8Bytes text maxBytes = text.take j := by
  unfold sliceToMaxUtf8Bytes
  by_cases h0 : text = []
  · refine ⟨0, ?_⟩
    rw [if_pos h0, h0]
    simp
  rw [if_neg h0]
  by_cases hfit : utf8Len text ≤ maxBytes
  · refine ⟨text.length, ?_⟩
    rw [if_pos hfit, List.take_length]
  rw [if_neg hfit]
  by_cases hz : maxBytes = 0
  · refine ⟨0, ?_⟩
    rw [if_pos hz]
    simp
  rw [if_neg hz]
  exact truncateUtf16Safe_eq_take text _

theorem sliceToMaxUtf8Bytes_wf (text : List Nat) (maxBytes : Nat)
    (hwf : wfUtf16 text = true) :
    wfUtf16 (sliceToMaxUtf8Bytes text maxBytes) = true := by
  unfold sliceToMaxUtf8Bytes
  by_cases h0 : text = []
  · rw [if_pos h0]
    exact hwf
  rw [if_neg h0]
  by_cases hfit : utf8Len text ≤ maxBytes
  · rw [if_pos hfit]
    exact hwf
  rw [if_neg hfit]
  by_cases hz : maxBytes = 0
  · rw [if_pos hz]
    simp [wfUtf16, wfGo]
  rw [if_neg hz]
  exact truncateUtf16Safe_wf text _ hwf

theorem countLines_le_of_take {a text : List Nat} (h : ∃ j, a = text.take j) :
    countLines a ≤ countLines text := by
  rcases h with ⟨j, rfl⟩
  exact countLines_take_le text j

theorem countLines_append_newline (a b : List Nat) (ha : a ≠ []) (hb : b ≠ []) :
    countLines (a ++ 10 :: b) = countLines a + countLines b := by
  unfold countLines
  rw [if_neg (by simp), if_neg ha, if_neg hb]
  rw [List.count_append, List.count_cons]
  simp
  omega

theorem suffix_bytes_eq :
    utf8Len (10 :: DEFAULT_TRUNCATION_SUFFIX) =
      1 + utf8Len DEFAULT_TRUNCATION_SUFFIX := by
  rw [utf8Len_cons]
  norm_num [isHighSurrogate]

theorem suffix_wf : wfGo false (10 :: DEFAULT_TRUNCATION_SUFFIX) = true ∧
    wfUtf16 DEFAULT_TRUNCATION_SUFFIX = true ∧
    DEFAULT_TRUNCATION_SUFFIX ≠ [] := by decide

/-- Bytes/lines/surrogate guarantees of `hardTruncateText` at the default
marker, provided the byte budget covers `"\n" + suffix` and the line
budget covers the marker's line count. -/
theorem hardTruncateText_bounds (text : List Nat) (B L : Nat)
    (hB : utf8Len (10 :: DEFAULT_TRUNCATION_SUFFIX) ≤ B)
    (hL : countLines DEFAULT_TRUNCATION_SUFFIX ≤ L) :
    utf8Len (hardTruncateText text B L).text ≤ B ∧
      countLines (hardTruncateText text B L).text ≤ L ∧
      (wfUtf16 text = true →
        wfUtf16 (hardTruncateText text B L).text = true) := by
  unfold hardTruncateText
  by_cases hin : countLines text ≤ L ∧ utf8Len text ≤ B
  · simp only [hin, and_self, if_pos, ite_true, if_true]
    exact ⟨trivial, trivial, fun h => h⟩
  · simp only [hin, if_false, if_neg, ite_false]
    set trimmed := sliceToMaxUtf8Bytes
      (sliceToMaxLines text (L - countLines DEFAULT_TRUNCATION_SUFFIX))
      (B - utf8Len (10 :: DEFAULT_TRUNCATION_SUFFIX)) with htrimmed
    have hbytes_t : utf8Len trimmed ≤
        B - utf8Len (10 :: DEFAULT_TRUNCATION_SUFFIX) :=
      sliceToMaxUtf8Bytes_le _ _
    have hlines_t : countLines trimmed ≤
        L - countLines DEFAULT_TRUNCATION_SUFFIX :=
      le_trans (countLines_le_of_take (sliceToMaxUtf8Bytes_eq_take _ _))
        (sliceToMaxLines_countLines _ _)
    have hwf_t : wfUtf16 text = true → wfUtf16 trimmed = true := fun h =>
      sliceToMaxUtf8Bytes_wf _ _ (sliceToMaxLines_wf _ _ h)
    by_cases hte : trimmed = []
    · simp only [hte, if_pos, ite_true, if_true, List.nil_append]
      refine ⟨?_, ?_, ?_⟩
      · have := suffix_bytes_eq
        omega
      · exact hL
      · intro _
        exact suffix_wf.2.1
    · simp only [hte, if_false, if_neg, ite_false]
      refine ⟨?_, ?_, ?_⟩
      · rw [utf8Len_append trimmed (10 :: DEFAULT_TRUNCATION_SUFFIX)
          (by intro c hc; simp at hc; subst hc; decide)]
        omega
      · rw [countLines_append_newline trimmed DEFAULT_TRUNCATION_SUFFIX hte
          suffix_wf.2.2]
        omega
      · intro hwf
        exact wfGo_append trimmed (10 :: DEFAULT_TRUNCATION_SUFFIX) false
          (hwf_t hwf) suffix_wf.1
          (by intro c hc; simp at hc; subst hc; decide)

/-- C2, amended: the claim as stated fails when the byte budget is
smaller than the truncation marker (the marker is returned whole) or the
line budget is smaller than the marker's line count, and the no-lone-
surrogate guarantee fails for already-malformed input that fits the
limits (returned verbatim). Amended: provided the byte budget covers
`"\n" + marker` and the line budget covers the marker's line count, the
output of `hardTruncateText` has UTF-8 byte length at most `B` and line
count at most `L`; and if the input has no unpaired surrogate, neither
has the output. -/
theorem hardTruncateText_clamped (text : List Nat) (B L : Nat)
    (hB : utf8Len (10 :: DEFAULT_TRUNCATION_SUFFIX) ≤ B)
    (hL : countLines DEFAULT_TRUNCATION_SUFFIX ≤ L) :
    utf8Len (hardTruncateText text B L).text ≤ B ∧
      countLines (hardTruncateText text B L).text ≤ L ∧
      (wfUtf16 text = true →
        wfUtf16 (hardTruncateText text B L).text = true) :=
  hardTruncateText_bounds text B L hB hL

/-- C2 counterexample: with `maxBytes = 1`, `maxLines = 0` the output is
the bare truncation marker, exceeding both limits; and a lone surrogate
that fits the limits is returned verbatim. -/
theorem hardTruncateText_clamped_cex :
    utf8Len (hardTruncateText (utf16Units "ab") 1 0).text > 1 ∧
      countLines (hardTruncateText (utf16Units "ab") 1 0).text > 0 ∧
      wfUtf16 (hardTruncateText [55296] 1000 1000).text = false := by decide

theorem hardTruncateText_clamped_witness :
    utf8Len (10 :: DEFAULT_TRUNCATION_SUFFIX) ≤ 200 ∧
      countLines DEFAULT_TRUNCATION_SUFFIX ≤ 5 ∧
      (utf8Len (hardTruncateText (utf16Units "hello") 200 5).text ≤ 200 ∧
        countLines (hardTruncateText (utf16Units "hello") 200 5).text ≤ 5 ∧
        (wfUtf16 (utf16Units "hello") = true →
          wfUtf16 (hardTruncateText (utf16Units "hello") 200 5).text = true)) :=
  ⟨by decide, by decide,
    hardTruncateText_clamped (utf16Units "hello") 200 5 (by decide) (by decide)⟩

theorem hardTruncateText_within (y : List Nat) (B L : Nat)
    (hb : utf8Len y ≤ B) (hl : countLines y ≤ L) :
    hardTruncateText y B L = ⟨y, false⟩ := by
  have hin : countLines y ≤ L ∧ utf8Len y ≤ B := ⟨hl, hb⟩
  simp only [hardTruncateText, hin, and_self, if_pos, ite_true, if_true]

/-- C6, amended: the claim as stated fails when the byte or line budget
cannot accommodate the truncation marker (re-clamping the emitted marker
truncates again). Amended: provided the byte budget covers
`"\n" + marker` and the line budget covers the marker's line count,
`hardTruncateText` is idempotent — re-applying it with the same limits to
the text of its own output returns that text unchanged with
`truncated = false`. -/
theorem hardTruncateText_idempotent (text : List Nat) (B L : Nat)
    (hB : utf8Len (10 :: DEFAULT_TRUNCATION_SUFFIX) ≤ B)
    (hL : countLines DEFAULT_TRUNCATION_SUFFIX ≤ L) :
    hardTruncateText (hardTruncateText text B L).text B L =
      ⟨(hardTruncateText text B L).text, false⟩ := by
  have h := hardTruncateText_bounds text B L hB hL
  exact hardTruncateText_within _ B L h.1 h.2.1

/-- C6 counterexample: with `maxBytes = 1`, `maxLines = 0`, the first
application emits the bare marker, and re-applying the clamp to it
truncates again (`truncated = true`). -/
theorem hardTruncateText_idempotent_cex :
    (hardTruncateText (hardTruncateText (utf16Units "ab") 1 0).text
      1 0).truncated = true := by decide

theorem hardTruncateText_idempotent_witness :
    hardTruncateText (hardTruncateText (utf16Units "hi") 200 5).text 200 5 =
      ⟨(hardTruncateText (utf16Units "hi") 200 5).text, false⟩ :=
  hardTruncateText_idempotent (utf16Units "hi") 200 5 (by decide) (by decide)

/-- `TOOL_OUTPUT_HARD_MAX_BYTES` (tool-output-hard-cap.ts:3). -/
def TOOL_OUTPUT_HARD_MAX_BYTES : Nat := 50 * 1024

/-- `TOOL_OUTPUT_HARD_MAX_LINES` (tool-output-hard-cap.ts:4). -/
def TOOL_OUTPUT_HARD_MAX_LINES : Nat := 2000

/-- `HARD_MAX_TOOL_RESULT_CHARS` (overflow recovery module). -/
def HARD_MAX_TOOL_RESULT_CHARS : Nat := 400000

/-- `calculateMaxToolResultChars` (overflow recovery module):
`Math.floor(contextWindowTokens * 0.3)` is embedded as the exact
`contextWindowTokens * 3 / 10` (the source computes the product in
floating point), then times 4 chars per token, capped at the absolute
ceiling. -/
def calculateMaxToolResultChars (contextWindowTokens : Nat) : Nat :=
  min (contextWindowTokens * 3 / 10 * 4) HARD_MAX_TOOL_RESULT_CHARS

/-- `getToolResultTextLength` (overflow recovery module): total UTF-16
length of the text blocks of a toolResult message. -/
def getToolResultTextLength (msg : Msg) : Nat :=
  if msg.role ≠ "toolResult" then 0
  else
    (msg.content.map (fun b =>
      match b with
      | Block.text u => u.length
      | Block.other => 0)).sum

/-- `getToolResultTextMetrics` (overflow recovery module): UTF-8 bytes
and line counts of the nonempty text blocks of a toolResult message,
plus one byte per join between blocks. -/
def getToolResultTextMetrics (msg : Msg) : Nat × Nat :=
  if msg.role ≠ "toolResult" then (0, 0)
  else
    let texts := msg.content.filterMap (fun b =>
      match b with
      | Block.text u => if u = [] then none else some u
      | Block.other => none)
    let bytes := (texts.map utf8Len).sum +
      (if texts.length > 1 then texts.length - 1 else 0)
    let lines := (texts.map countLines).sum
    (bytes, lines)

/-- `isOversizedToolResult` (overflow recovery module, part_009:356). -/
def isOversizedToolResult (msg : Msg) (contextWindowTokens : Nat) : Bool :=
  if msg.role ≠ "toolResult" then false
  else
    let maxChars := calculateMaxToolResultChars contextWindowTokens
    if getToolResultTextLength msg > maxChars then true
    else
      decide ((getToolResultTextMetrics msg).1 > TOOL_OUTPUT_HARD_MAX_BYTES ∨
        (getToolResultTextMetrics msg).2 > TOOL_OUTPUT_HARD_MAX_LINES)

/-- The oversize test exactly as the spec phrases it: a toolResult whose
combined text length exceeds `min(contextWindow × 0.3 × charsPerToken,
absolute ceiling)`, or whose byte/line metrics exceed the fixed global
byte-and-line budget (constants independent of the context window). -/
def specOversizedToolResult (msg : Msg) (contextWindowTokens : Nat) : Prop :=
  msg.role = "toolResult" ∧
    (getToolResultTextLength msg >
        min (contextWindowTokens * 3 / 10 * 4) 400000 ∨
      (getToolResultTextMetrics msg).1 > 50 * 1024 ∨
      (getToolResultTextMetrics msg).2 > 2000)

/-- C9: a toolResult message is classified as oversized by the
overflow-recovery path exactly when its combined text-block character
length exceeds `min(contextWindow × 0.3 × charsPerToken, the absolute
character ceiling)` or its text byte/line metrics exceed the fixed
global byte-and-line budget. -/
theorem isOversizedToolResult_iff_spec (msg : Msg)
    (contextWindowTokens : Nat) :
    isOversizedToolResult msg contextWindowTokens = true ↔
      specOversizedToolResult msg contextWindowTokens := by
  unfold isOversizedToolResult specOversizedToolResult
    calculateMaxToolResultChars HARD_MAX_TOOL_RESULT_CHARS
    TOOL_OUTPUT_HARD_MAX_BYTES TOOL_OUTPUT_HARD_MAX_LINES
  by_cases hrole : msg.role = "toolResult"
  · simp only [hrole, ne_eq, not_true_eq_false, if_false, ite_false,
      true_and, if_neg, not_false_eq_true]
    by_cases hchars : getToolResultTextLength msg >
        min (contextWindowTokens * 3 / 10 * 4) 400000
    · simp [hchars]
    · simp [hchars]
  · simp [hrole]

/-- An error thrown by the external summarizer: either one whose `name`
is `"AbortError"`, or any other failure. -/
inductive SumErr where
  | abortError
  | failure (message : String)
deriving DecidableEq, Repr

/-- `isAbortError` (compaction.ts:22): the signal already aborted, or the
error's name is `"AbortError"`. -/
def isAbortError (e : SumErr) (signalAborted : Bool) : Bool :=
  signalAborted ||
    (match e with
     | SumErr.abortError => true
     | SumErr.failure _ => false)

/-- The pluggable external summarizer `generateSummary`: it receives a
chunk and the rolling summary so far, and either returns a summary or
throws. -/
def Gen : Type := List Msg → Option String → Except SumErr String

/-- `DEFAULT_SUMMARY_FALLBACK` (compaction.ts:10). -/
def DEFAULT_SUMMARY_FALLBACK : String := "No prior history."

/-- `isOversizedForSummary` (compaction.ts:164):
`estimateTokens(msg) * SAFETY_MARGIN > contextWindow * 0.5` with
`SAFETY_MARGIN = 1.2`, embedded as the exact cross-multiplied integer
comparison (both sides times 10). -/
def isOversizedForSummary (est : Msg → Nat) (msg : Msg)
    (contextWindow : Nat) : Bool :=
  12 * est msg > 5 * contextWindow

/-- The sequential rolling-summary loop of `summarizeChunks`
(compaction.ts:186): each chunk is summarized with the prior summary fed
forward; the first error aborts the loop. -/
def summarizeChunksGo (gen : Gen) :
    List (List Msg) → Option String → Except SumErr (Option String)
  | [], summary => Except.ok summary
  | chunk :: rest, summary =>
    match gen chunk summary with
    | Except.ok s => summarizeChunksGo gen rest (some s)
    | Except.error e => Except.error e

/-- `summarizeChunks` (compaction.ts:169). -/
def summarizeChunks (est : Msg → Nat) (gen : Gen) (messages : List Msg)
    (maxChunkTokens : Nat) (previousSummary : Option String) :
    Except SumErr String :=
  if messages = [] then
    Except.ok (previousSummary.getD DEFAULT_SUMMARY_FALLBACK)
  else
    match summarizeChunksGo gen
        (chunkMessagesByMaxTokens est messages maxChunkTokens)
        previousSummary with
    | Except.ok s => Except.ok (s.getD DEFAULT_SUMMARY_FALLBACK)
    | Except.error e => Except.error e

/-- Errors of `summarizeWithFallback`: a rethrown summarizer error
(cancellation), or the distinguished
`CompactionSummaryUnavailableError`. -/
inductive CompErr where
  | rethrown (e : SumErr)
  | summaryUnavailable
deriving DecidableEq, Repr

/-- The omission note of `summarizeWithFallback` (compaction.ts:244);
`Math.round(tokens / 1000)` is `(tokens + 500) / 1000` on naturals. -/
def oversizedNote (est : Msg → Nat) (m : Msg) : String :=
  "[Large " ++ m.role ++ " (~" ++ toString ((est m + 500) / 1000) ++
    "K tokens) omitted from summary]"

/-- `summarizeWithFallback` (compaction.ts:205). The `console.warn`
calls are unobservable and omitted; the single pass that splits
`messages` into small and oversized ones is expressed as two
order-preserving filters. -/
def summarizeWithFallback (est : Msg → Nat) (gen : Gen)
    (signalAborted : Bool) (messages : List Msg)
    (maxChunkTokens contextWindow : Nat)
    (previousSummary : Option String) : Except CompErr String :=
  if messages = [] then
    Except.ok (previousSummary.getD DEFAULT_SUMMARY_FALLBACK)
  else
    match summarizeChunks est gen messages maxChunkTokens previousSummary with
    | Except.ok s => Except.ok s
    | Except.error e =>
      if isAbortError e signalAborted then Except.error (CompErr.rethrown e)
      else
        let smallMessages := messages.filter
          (fun m => ! isOversizedForSummary est m contextWindow)
        let oversizedNotes := (messages.filter
          (fun m => isOversizedForSummary est m contextWindow)).map
          (oversizedNote est)
        if smallMessages ≠ [] then
          match summarizeChunks est gen smallMessages maxChunkTokens
              previousSummary with
          | Except.ok partialSummary =>
            Except.ok (partialSummary ++
              (if oversizedNotes ≠ [] then
                "\n\n" ++ String.intercalate "\n" oversizedNotes
              else ""))
          | Except.error e2 =>
            if isAbortError e2 signalAborted then
              Except.error (CompErr.rethrown e2)
            else Except.error CompErr.summaryUnavailable
        else Except.error CompErr.summaryUnavailable

/-- C5: in `summarizeWithFallback`, a cancellation (abort) error at
either summarization stage is rethrown as-is (never converted by the
fallback ladder), and when the full stage and the partial stage both
fail with non-cancellation errors (or no non-oversized message remains),
the distinguished summary-unavailable error is thrown rather than any
degraded summary being returned. -/
theorem summarizeWithFallback_error_ladder (est : Msg → Nat) (gen : Gen)
    (signalAborted : Bool) (messages : List Msg)
    (maxChunkTokens contextWindow : Nat) (previousSummary : Option String) :
    (∀ e, summarizeChunks est gen messages maxChunkTokens previousSummary =
        Except.error e →
      isAbortError e signalAborted = true →
      summarizeWithFallback est gen signalAborted messages maxChunkTokens
          contextWindow previousSummary = Except.error (CompErr.rethrown e)) ∧
    (∀ e e2, summarizeChunks est gen messages maxChunkTokens previousSummary =
        Except.error e →
      isAbortError e signalAborted = false →
      messages.filter (fun m => ! isOversizedForSummary est m contextWindow)
          ≠ [] →
      summarizeChunks est gen
          (messages.filter
            (fun m => ! isOversizedForSummary est m contextWindow))
          maxChunkTokens previousSummary = Except.error e2 →
      isAbortError e2 signalAborted = true →
      summarizeWithFallback est gen signalAborted messages maxChunkTokens
          contextWindow previousSummary =
        Except.error (CompErr.rethrown e2)) ∧
    (∀ e, summarizeChunks est gen messages maxChunkTokens previousSummary =
        Except.error e →
      isAbortError e signalAborted = false →
      (messages.filter (fun m => ! isOversizedForSummary est m contextWindow)
          = [] ∨
        ∃ e2, summarizeChunks est gen
            (messages.filter
              (fun m => ! isOversizedForSummary est m contextWindow))
            maxChunkTokens previousSummary = Except.error e2 ∧
          isAbortError e2 signalAborted = false) →
      summarizeWithFallback est gen signalAborted messages maxChunkTokens
          contextWindow previousSummary =
        Except.error CompErr.summaryUnavailable) := by
  have hne : ∀ e, summarizeChunks est gen messages maxChunkTokens
      previousSummary = Except.error e → messages ≠ [] := by
    intro e he h0
    rw [summarizeChunks, if_pos h0] at he
    exact Except.noConfusion he
  refine ⟨?_, ?_, ?_⟩
  · intro e he habort
    rw [summarizeWithFallback, if_neg (hne e he), he]
    simp only [habort, if_pos, ite_true, if_true]
  · intro e e2 he habort hsmall he2 habort2
    rw [summarizeWithFallback, if_neg (hne e he), he]
    simp only [habort, Bool.false_eq_true, if_false, ite_false]
    simp only [hsmall, if_pos, ite_true, if_true, he2]
    simp only [habort2, if_pos, ite_true, if_true]
    simp [hsmall]
  · intro e he habort hcase
    rw [summarizeWithFallback, if_neg (hne e he), he]
    simp only [habort, Bool.false_eq_true, if_false, ite_false]
    rcases hcase with hempty | ⟨e2, he2, habort2⟩
    · simp only [hempty, ne_eq, not_true_eq_false, if_false, ite_false]
    · by_cases hsmall : messages.filter
          (fun m => ! isOversizedForSummary est m contextWindow) = []
      · simp only [hsmall, ne_eq, not_true_eq_false, if_false, ite_false]
      · simp only [hsmall, ne_eq, not_false_eq_true, if_pos, ite_true,
          if_true, he2]
        simp only [habort2, Bool.false_eq_true, if_false, ite_false]

theorem summarizeWithFallback_error_ladder_witness :
    summarizeWithFallback Msg.tokens
        (fun _ _ => Except.error SumErr.abortError) false [userMsg 1]
        100 10 none = Except.error (CompErr.rethrown SumErr.abortError) ∧
      summarizeWithFallback Msg.tokens
        (fun chunk _ =>
          if chunk.length = 2 then Except.error (SumErr.failure "f")
          else Except.error SumErr.abortError) false
        [userMsg 100, userMsg 1] 1000 10 none =
        Except.error (CompErr.rethrown SumErr.abortError) ∧
      summarizeWithFallback Msg.tokens
        (fun _ _ => Except.error (SumErr.failure "g")) false [userMsg 1]
        100 10 none = Except.error CompErr.summaryUnavailable :=
  ⟨(summarizeWithFallback_error_ladder Msg.tokens
      (fun _ _ => Except.error SumErr.abortError) false [userMsg 1]
      100 10 none).1 SumErr.abortError (by rfl) (by decide),
   (summarizeWithFallback_error_ladder Msg.tokens
      (fun chunk _ =>
        if chunk.length = 2 then Except.error (SumErr.failure "f")
        else Except.error SumErr.abortError) false
      [userMsg 100, userMsg 1] 1000 10 none).2.1
      (SumErr.failure "f") SumErr.abortError (by rfl) (by decide)
      (by decide) (by rfl) (by decide),
   (summarizeWithFallback_error_ladder Msg.tokens
      (fun _ _ => Except.error (SumErr.failure "g")) false [userMsg 1]
      100 10 none).2.2 (SumErr.failure "g") (by rfl) (by decide)
      (Or.inr ⟨SumErr.failure "g", by rfl, by decide⟩)⟩

/-- C8, amended: the claim as stated fails because the first (full)
summarization attempt chunks and summarizes every message, oversized
ones included, and on success appends no omission note. Amended: only in
the fallback stage — once the full attempt has failed with a
non-cancellation error — is every message exceeding half the context
window (after the safety margin) excluded from what is chunked and
summarized, and each such message is reported via a short omission note
appended to the returned summary. -/
theorem summarizeWithFallback_excludes_oversized (est : Msg → Nat)
    (gen : Gen) (signalAborted : Bool) (messages : List Msg)
    (maxChunkTokens contextWindow : Nat) (previousSummary : Option String) :
    ∀ e ps, summarizeChunks est gen messages maxChunkTokens previousSummary =
        Except.error e →
      isAbortError e signalAborted = false →
      messages.filter (fun m => ! isOversizedForSummary est m contextWindow)
          ≠ [] →
      summarizeChunks est gen
          (messages.filter
            (fun m => ! isOversizedForSummary est m contextWindow))
          maxChunkTokens previousSummary = Except.ok ps →
      summarizeWithFallback est gen signalAborted messages maxChunkTokens
          contextWindow previousSummary =
        Except.ok (ps ++
          (if (messages.filter
              (fun m => isOversizedForSummary est m contextWindow)).map
              (oversizedNote est) ≠ [] then
            "\n\n" ++ String.intercalate "\n"
              ((messages.filter
                (fun m => isOversizedForSummary est m contextWindow)).map
                (oversizedNote est))
          else "")) := by
  intro e ps he habort hsmall hps
  have hne : messages ≠ [] := by
    intro h0
    rw [summarizeChunks, if_pos h0] at he
    exact Except.noConfusion he
  rw [summarizeWithFallback, if_neg hne, he]
  simp only [habort, Bool.false_eq_true, if_false, ite_false]
  simp only [hsmall, ne_eq, not_false_eq_true, if_pos, ite_true, if_true, hps]

/-- C8 counterexample: a message oversized for summary is chunked and
summarized by the first (full) attempt, and the successful result
carries no omission note. -/
theorem summarize_oversized_chunked_cex :
    isOversizedForSummary Msg.tokens (userMsg 100) 10 = true ∧
      chunkMessagesByMaxTokens Msg.tokens [userMsg 100] 1000 =
        [[userMsg 100]] ∧
      summarizeWithFallback Msg.tokens (fun _ _ => Except.ok "S") false
        [userMsg 100] 1000 10 none = Except.ok "S" :=
  ⟨by decide, by rfl, by rfl⟩

theorem summarizeWithFallback_excludes_oversized_witness :
    summarizeWithFallback Msg.tokens
      (fun chunk _ =>
        if chunk.length = 2 then Except.error (SumErr.failure "f")
        else Except.ok "P") false [userMsg 100, userMsg 1] 1000 10 none =
      Except.ok ("P" ++
        (if ([userMsg 100, userMsg 1].filter
            (fun m => isOversizedForSummary Msg.tokens m 10)).map
            (oversizedNote Msg.tokens) ≠ [] then
          "\n\n" ++ String.intercalate "\n"
            (([userMsg 100, userMsg 1].filter
              (fun m => isOversizedForSummary Msg.tokens m 10)).map
              (oversizedNote Msg.tokens))
        else "")) :=
  summarizeWithFallback_excludes_oversized Msg.tokens
    (fun chunk _ =>
      if chunk.length = 2 then Except.error (SumErr.failure "f")
      else Except.ok "P") false [userMsg 100, userMsg 1] 1000 10 none
    (SumErr.failure "f") "P" (by rfl) (by decide) (by decide) (by rfl)

/-- A JSON-like tool payload value: JavaScript strings are code-unit
lists, object fields keep insertion order. Reference cycles cannot occur
in this tree model, so the source's call-scoped `WeakSet` cycle check
(`seen`) never fires and is omitted from the embedding. -/
inductive JVal where
  | str (units : List Nat)
  | num (n : Int)
  | jbool (b : Bool)
  | jnull
  | arr (xs : List JVal)
  | obj (fields : List (List Nat × JVal))

/-- One lowercase hex digit, as `JSON.stringify` emits in escapes. -/
def hexDigit (n : Nat) : Nat :=
  if n < 10 then 48 + n else 87 + n

def hex4 (c : Nat) : List Nat :=
  [hexDigit (c / 4096 % 16), hexDigit (c / 256 % 16),
    hexDigit (c / 16 % 16), hexDigit (c % 16)]

/-- The string-escaping of `JSON.stringify` (well-formed JSON mode, as in
Node ≥ 10): quote, backslash and the named control escapes, `\u00xx` for
other control characters, `\uxxxx` for unpaired surrogates, everything
else verbatim. -/
def escapeJsonUnits : List Nat → List Nat
  | [] => []
  | c :: rest =>
    if c = 34 then 92 :: 34 :: escapeJsonUnits rest
    else if c = 92 then 92 :: 92 :: escapeJsonUnits rest
    else if c = 8 then 92 :: 98 :: escapeJsonUnits rest
    else if c = 9 then 92 :: 116 :: escapeJsonUnits rest
    else if c = 10 then 92 :: 110 :: escapeJsonUnits rest
    else if c = 12 then 92 :: 102 :: escapeJsonUnits rest
    else if c = 13 then 92 :: 114 :: escapeJsonUnits rest
    else if c < 32 then 92 :: 117 :: (hex4 c ++ escapeJsonUnits rest)
    else if isHighSurrogate c then
      match rest with
      | d :: rest2 =>
        if isLowSurrogate d then c :: d :: escapeJsonUnits rest2
        else 92 :: 117 :: (hex4 c ++ escapeJsonUnits (d :: rest2))
      | [] => 92 :: 117 :: hex4 c
    else if isLowSurrogate c then 92 :: 117 :: (hex4 c ++ escapeJsonUnits rest)
    else c :: escapeJsonUnits rest

def intToUnits (i : Int) : List Nat := utf16Units (toString i)

/-- `JSON.stringify`, given enough recursion fuel. `hardCapToolOutput`
serializes only values already depth-capped by its `walk` (depth ≤ 6
below the root) and its flat fallback wrapper, so the fuel of 16 used by
`jsonSerialize` is never exhausted on any value that function
serializes; the fuel keeps the recursion structural. -/
def jsonSerializeFuel : Nat → JVal → List Nat
  | _, JVal.str u => 34 :: (escapeJsonUnits u ++ [34])
  | _, JVal.num i => intToUnits i
  | _, JVal.jbool true => utf16Units "true"
  | _, JVal.jbool false => utf16Units "false"
  | _, JVal.jnull => utf16Units "null"
  | 0, JVal.arr _ => []
  | 0, JVal.obj _ => []
  | fuel + 1, JVal.arr xs =>
    91 :: (List.intercalate [44] (xs.map (jsonSerializeFuel fuel)) ++ [93])
  | fuel + 1, JVal.obj fields =>
    123 :: (List.intercalate [44] (fields.map (fun kv =>
      34 :: (escapeJsonUnits kv.1 ++ [34]) ++ (58 :: jsonSerializeFuel fuel kv.2)))
      ++ [125])

def jsonSerialize (v : JVal) : List Nat := jsonSerializeFuel 16 v

/-- Array branch of `capContainerSize` (tool-output-hard-cap.ts:111). -/
def capArray (xs : List JVal) : List JVal :=
  if xs.length ≤ 400 then xs
  else xs.take 400 ++
    [JVal.obj [(utf16Units "omitted", JVal.jbool true),
      (utf16Units "items", JVal.num ((xs.length - 400 : Nat) : Int))]]

/-- Object branch of `capContainerSize` (tool-output-hard-cap.ts:124). -/
def capObjectFields (fs : List (List Nat × JVal)) :
    List (List Nat × JVal) :=
  if fs.length ≤ 400 then fs
  else fs.take 400 ++
    [(utf16Units "_omittedKeys", JVal.num ((fs.length - 400 : Nat) : Int))]

/-- The recursive `walk` of `hardCapToolOutput`
(tool-output-hard-cap.ts:142): strings are clamped, containers are
size-capped and recursed into with one less depth, and at depth 0 a
container is replaced by its type marker. -/
def walkCap (maxBytes maxLines : Nat) : JVal → Nat → JVal
  | JVal.str u, _ => JVal.str (hardTruncateText u maxBytes maxLines).text
  | JVal.num i, _ => JVal.num i
  | JVal.jbool b, _ => JVal.jbool b
  | JVal.jnull, _ => JVal.jnull
  | JVal.arr xs, 0 =>
    JVal.str (utf16Units ("[Array(" ++ toString (capArray xs).length ++ ")]"))
  | JVal.arr xs, depth + 1 =>
    JVal.arr ((capArray xs).map (fun v => walkCap maxBytes maxLines v depth))
  | JVal.obj _, 0 => JVal.str (utf16Units "[Object]")
  | JVal.obj fs, depth + 1 =>
    JVal.obj ((capObjectFields fs).map
      (fun kv => (kv.1, walkCap maxBytes maxLines kv.2 depth)))

/-- The `{truncated: true, bytes, preview}` fallback wrapper of
`hardCapToolOutput` (spread `{...base, preview}` keeps the key order
truncated, bytes, preview). -/
def mkCapWrapper (bytes : Nat) (preview : List Nat) : JVal :=
  JVal.obj [(utf16Units "truncated", JVal.jbool true),
    (utf16Units "bytes", JVal.num (bytes : Int)),
    (utf16Units "preview", JVal.str preview)]

/-- The preview-shrink loop of `hardCapToolOutput`
(tool-output-hard-cap.ts:195): check the current wrapper, stop when it
fits or the budget is exhausted, else shrink the budget to
`Math.floor(budget * 0.9)` (embedded as `budget * 9 / 10`) and rebuild
the preview; at most `fuel = 6` shrink passes, after which the current
wrapper is returned unchecked, exactly as the source loop. -/
def shrinkGo (serialized : List Nat) (maxBytes maxLines bytes : Nat) :
    Nat → Nat → List Nat → JVal
  | 0, _, preview => mkCapWrapper bytes preview
  | fuel + 1, budget, preview =>
    let out := mkCapWrapper bytes preview
    if utf8Len (jsonSerialize out) ≤ maxBytes ∨ budget = 0 then out
    else
      let budget2 := budget * 9 / 10
      let preview2 := (hardTruncateText serialized budget2 maxLines).text
      shrinkGo serialized maxBytes maxLines bytes fuel budget2 preview2

/-- `hardCapToolOutput` (tool-output-hard-cap.ts:137) on tree payloads.
`JSON.stringify` cannot throw on these (no cycles or exotic values in
the model), so the `catch` branch is unreachable and omitted. -/
def hardCapToolOutput (value : JVal) (maxBytes maxLines : Nat) : JVal :=
  let mapped := walkCap maxBytes maxLines value 6
  let serialized := jsonSerialize mapped
  let bytes := utf8Len serialized
  if bytes ≤ maxBytes then mapped
  else
    let overhead := utf8Len (jsonSerialize (mkCapWrapper bytes []))
    let budget := maxBytes - overhead
    let preview := (hardTruncateText serialized budget maxLines).text
    shrinkGo serialized maxBytes maxLines bytes 6 budget preview

/-- C3 (code defect witness): for the 200-character string payload
`"xxx…"` and byte budget `maxBytes = 100`, the value returned by
`hardCapToolOutput` serializes to 174 UTF-8 bytes, exceeding the budget:
the fixed truncation marker (131 bytes) is larger than the budget, every
rebuilt preview degenerates to the bare marker, and the bounded shrink
loop returns the over-budget wrapper. -/
theorem hardCapToolOutput_cap_violation :
    utf8Len (jsonSerialize (hardCapToolOutput
        (JVal.str (List.replicate 200 120)) 100 2000)) = 174 ∧
      100 < 174 := by
  constructor
  · rfl
  · decide
